import Mathlib

/-!
Verification of the file-extraction and reconciliation engine of
`debug-tools/extract_serialized_files.py`.

The Python source scans free-form log text with regular expressions and
builds ordered path-to-content mappings (Python `dict`s, modelled as
association lists in insertion order).  Every scanner below is a direct
translation of one regular expression of the source, implemented as an
explicit character-list matcher with the same leftmost, non-overlapping
`re.finditer` semantics; where the original pattern allows backtracking
the matcher enumerates the candidates in the engine's order.  Machine
strings are Lean `String`s (lists of unicode scalar values, matching
Python `str` code points); byte counts in the source are `len` of such
strings and are modelled by `List.length` of the data.
-/

namespace ESF

/-- Whitespace as matched by Python's `\s` (and stripped by `str.strip`)
for the ASCII range: space, tab, newline, carriage return, vertical tab
and form feed.  Exotic unicode whitespace is not modelled; no claim
depends on it. -/
def isPySpace (c : Char) : Bool :=
  c = ' ' || c = '\t' || c = '\n' || c = '\r' || c = '\x0b' || c = '\x0c'

/-- Boolean test that `pat` is a prefix of `cs`. -/
def leadsWith : List Char → List Char → Bool
  | [], _ => true
  | _ :: _, [] => false
  | p :: ps, c :: cs => p = c && leadsWith ps cs

/-- Locate the first occurrence of `pat` in `cs`; return the text before it
and the text after it.  This is the semantics of a lazy `(.*?)pat` group in
a Python regex with `re.DOTALL`: the shortest prefix followed by `pat`. -/
def splitAtFirst (pat : List Char) : List Char → Option (List Char × List Char)
  | [] => if leadsWith pat [] then some ([], []) else none
  | c :: cs =>
    if leadsWith pat (c :: cs) then some ([], (c :: cs).drop pat.length)
    else
      match splitAtFirst pat cs with
      | some (b, r) => some (c :: b, r)
      | none => none

/-- Boolean substring test, via `splitAtFirst`. -/
def occursB (pat cs : List Char) : Bool := (splitAtFirst pat cs).isSome

/-- Strip `isPySpace` characters from both ends of a character list, as
Python's `str.strip()` does. -/
def stripL (cs : List Char) : List Char :=
  ((cs.dropWhile isPySpace).reverse.dropWhile isPySpace).reverse

/-- Python `str.strip()`. -/
def pyStrip (s : String) : String := String.mk (stripL s.data)

/-! ### Decimal rendering of natural numbers

Python renders the dedup counter with `f"..._v{counter}..."`, i.e. the
decimal representation of the integer.  `natToDec` is that rendering,
kept structurally recursive on a fuel argument so that it evaluates by
kernel reduction; `decVal` is its verified left inverse, which gives
injectivity. -/
def natToDecAux : Nat → Nat → List Char
  | 0, _ => []
  | fuel + 1, n => if n = 0 then [] else natToDecAux fuel (n / 10) ++ [Nat.digitChar (n % 10)]

def natToDec (n : Nat) : String :=
  if n = 0 then "0" else String.mk (natToDecAux (n + 1) n)

def decVal (cs : List Char) : Nat := cs.foldl (fun a c => 10 * a + (c.toNat - 48)) 0

/-! ### `os.path.splitext` (posix flavour)

CPython splits at the last `.` of the final path component, unless every
character of the final component before that dot is itself a dot (so
dotfiles like `.bashrc` keep their name whole). -/
/-- Index of the last occurrence of `c` in `cs`, or `none`.  This is
Python's `str.rfind`, with `none` for the `-1` result. -/
def lastIdxOf (c : Char) (cs : List Char) : Option Nat :=
  (cs.foldl (fun (st : Nat × Option Nat) d =>
    (st.1 + 1, if d = c then some st.1 else st.2)) (0, none)).2

/-- Model of `os.path.splitext` with `/` as the separator, following the
CPython algorithm (`genericpath._splitext`). -/
def splitext (p : String) : String × String :=
  let cs := p.data
  let sepIdx : Option Nat := lastIdxOf '/' cs
  let dotIdx : Option Nat := lastIdxOf '.' cs
  match dotIdx with
  | none => (p, "")
  | some d =>
    let base : Nat := match sepIdx with
      | none => 0
      | some s => s + 1
    if base ≤ d ∧ d ≠ base ∧ (List.range (d - base)).any
        (fun j => decide ((cs.drop (base + j)).head? ≠ some '.')) then
      (String.mk (cs.take d), String.mk (cs.drop d))
    else
      (p, "")

/-! ### Path deduplication (shared policy of both extractors)

The source keeps a `files` dict and runs, for each candidate path,

    counter = 1
    while filepath in files:
        base, ext = os.path.splitext(original_filepath)
        filepath = f"{base}_v{counter}{ext}"
        counter += 1

The loop below is that `while` with an explicit fuel of
`keys.length + 1` iterations; `reserve_not_mem` proves the loop always
exits within that fuel (pigeonhole over the distinct candidate names), so
the fuel-exhaustion branch is unreachable and the definition agrees with
the unbounded loop. -/
def reserveName (base ext : String) (n : Nat) : String :=
  base ++ "_v" ++ natToDec n ++ ext

def reserveLoop (base ext : String) (keys : List String) : Nat → Nat → String
  | _, 0 => base ++ ext
  | counter, fuel + 1 =>
    if reserveName base ext counter ∈ keys then
      reserveLoop base ext keys (counter + 1) fuel
    else reserveName base ext counter

/-- Final key chosen for a candidate path against the keys already in the
mapping. -/
def reserve (path : String) (keys : List String) : String :=
  if path ∈ keys then
    let se := splitext path
    reserveLoop se.1 se.2 keys 1 (keys.length + 1)
  else path

/-! ### Heredoc extractor

Source pattern (with `re.DOTALL`):

    cat > ([^\s<]+) << 'EOF'\n(.*?)\nEOF

The first group `[^\s<]+` is greedy; since the literal that follows it
starts with a space, which the character class can never match, no
backtracking into the group is possible and the capture is exactly the
maximal run, modelled by `takeWhile`.  The lazy second group with the
trailing literal is `splitAtFirst`. -/
def pathChar (c : Char) : Bool := !isPySpace c && c != '<'

def catMark : List Char := "cat > ".data

def heredocMid : List Char := (" << \x27EOF\x27" ++ "\n").data

def nlEOF : List Char := "\nEOF".data

/-- Attempt the heredoc pattern anchored at the start of `cs`.  On success
return the `(path, content)` capture and the text after the match. -/
def heredocAt (cs : List Char) : Option ((String × String) × List Char) :=
  if leadsWith catMark cs then
    let r1 := cs.drop catMark.length
    let p := r1.takeWhile pathChar
    if p.isEmpty then none
    else
      let r2 := r1.drop p.length
      if leadsWith heredocMid r2 then
        match splitAtFirst nlEOF (r2.drop heredocMid.length) with
        | some (content, rest) => some ((String.mk p, String.mk content), rest)
        | none => none
      else none
  else none

/-- Scan for successive non-overlapping matches in document order, the
semantics of `re.finditer`: at each position try a match; on success
continue after the match, otherwise advance one character.  The fuel is an
upper bound on the number of steps; `extract_files_from_text` passes
`length + 1`, which suffices because every step strictly consumes input. -/
def scanHeredocF : Nat → List Char → List (String × String)
  | 0, _ => []
  | _ + 1, [] => []
  | fuel + 1, c :: cs =>
    match heredocAt (c :: cs) with
    | some (pc, rest) => pc :: scanHeredocF fuel rest
    | none => scanHeredocF fuel cs

/-- Insert one extracted candidate into the growing mapping, applying the
deduplication policy against the keys already present. -/
def insertFile (files : List (String × String)) (path content : String) :
    List (String × String) :=
  files ++ [(reserve path (files.map Prod.fst), content)]

/-- Fold a raw match list into a mapping, in match order (the loop body of
both extractors). -/
def dedupFold (raw : List (String × String)) : List (String × String) :=
  raw.foldl (fun fs pc => insertFile fs pc.1 pc.2) []

/-- Model of `FileExtractor._extract_files_from_text` (the `source`
parameter of the original only labels log output and is omitted). -/
def extract_files_from_text (text : String) : List (String × String) :=
  dedupFold (scanHeredocF (text.data.length + 1) text.data)

/-! ### Structured-block extractor

Source pattern (with `re.DOTALL`):

    #### filePath\s*```\s*([^`]+?)\s*```\s*#### fileContents\s*```(?:[a-z]*\n)?(.*?)```

Backtracking notes, reflected in the model:
* every `\s*` that is followed by a literal starting with a
  non-whitespace character can never give characters back, so it is a
  plain maximal `dropWhile`;
* the composite `\s*([^`]+?)\s*\x60\x60\x60` does backtrack: the leading
  `\s*` is tried longest first and the lazy group shortest first, and a
  later failure of the remainder of the pattern resumes with the next
  candidate.  `pathGroupCands` enumerates the candidate `(capture, rest)`
  pairs in exactly that engine order and `structuredAt` takes the first
  whose tail succeeds;
* `(?:[a-z]*\n)?` is greedy; its interior cannot give characters back
  (shortening the letter run leaves a letter where `\n` is required), and
  declining the whole group cannot turn a failing tail into a succeeding
  one because the group's interior contains no backtick.  So it is the
  deterministic `skipLangTag`. -/
def ffence : List Char := "```".data

def fpMark : List Char := "#### filePath".data

def fcMark : List Char := "#### fileContents".data

def skipWs (cs : List Char) : List Char := cs.dropWhile isPySpace

/-- Candidates of the lazy group `([^\x60]+?)\s*\x60\x60\x60` anchored at the
head of `cs`, shortest capture first. -/
def lazyGroupCands : List Char → List (List Char × List Char)
  | [] => []
  | c :: cs =>
    if c = '\x60' then []
    else
      let tail := skipWs cs
      (if leadsWith ffence tail then [([c], tail.drop 3)] else []) ++
        (lazyGroupCands cs).map (fun pr => (c :: pr.1, pr.2))

/-- Candidates of `\s*([^\x60]+?)\s*\x60\x60\x60`: the greedy leading `\s*`
takes its longest form first, then backtracks one character at a time. -/
def wsDescCands : Nat → List Char → List (List Char × List Char)
  | 0, cs => lazyGroupCands cs
  | w + 1, cs => lazyGroupCands (cs.drop (w + 1)) ++ wsDescCands w cs

def pathGroupCands (cs : List Char) : List (List Char × List Char) :=
  wsDescCands (cs.takeWhile isPySpace).length cs

/-- Skip the optional language-tag line `(?:[a-z]*\n)?` after the opening
content fence. -/
def skipLangTag (cs : List Char) : List Char :=
  let run := cs.takeWhile Char.isLower
  match cs.drop run.length with
  | '\n' :: _ => cs.drop (run.length + 1)
  | _ => cs

/-- Remainder of the pattern after the path capture:
`\s*#### fileContents\s*\x60\x60\x60(?:[a-z]*\n)?(.*?)\x60\x60\x60`.
Returns the content capture and the text after the match. -/
def structTail (cs : List Char) : Option (List Char × List Char) :=
  let r1 := skipWs cs
  if leadsWith fcMark r1 then
    let r2 := skipWs (r1.drop fcMark.length)
    if leadsWith ffence r2 then
      splitAtFirst ffence (skipLangTag (r2.drop 3))
    else none
  else none

/-- Attempt the structured pattern anchored at the start of `cs`.  The
extracted path is stripped (`match.group(1).strip()` in the source). -/
def structuredAt (cs : List Char) : Option ((String × String) × List Char) :=
  if leadsWith fpMark cs then
    let r1 := skipWs (cs.drop fpMark.length)
    if leadsWith ffence r1 then
      (pathGroupCands (r1.drop 3)).findSome? fun pr =>
        (structTail pr.2).map fun cr =>
          ((pyStrip (String.mk pr.1), String.mk cr.1), cr.2)
    else none
  else none

def scanStructF : Nat → List Char → List (String × String)
  | 0, _ => []
  | _ + 1, [] => []
  | fuel + 1, c :: cs =>
    match structuredAt (c :: cs) with
    | some (pc, rest) => pc :: scanStructF fuel rest
    | none => scanStructF fuel cs

/-- Model of `FileExtractor._extract_structured_files`. -/
def extract_structured_files (text : String) : List (String × String) :=
  dedupFold (scanStructF (text.data.length + 1) text.data)

/-! ### Tree metadata locator

Source patterns, tried in order with `re.search` and `re.DOTALL`:

    <TEMPLATE_FILE_TREE>(.*?)</TEMPLATE_FILE_TREE>
    <FILE_TREE>(.*?)</FILE_TREE>
    <CODEBASE.*?>(.*?)</CODEBASE>

`re.search` returns the leftmost match.  For `open(.*?)close` that is:
anchor at the first occurrence of `open`, capture up to the first
occurrence of `close` after it — if no `close` follows the first `open`,
no later anchor can succeed either, since the text after a later anchor
is a suffix of the text after the first.  The same monotonicity argument
applies to the lazy `.*?>` of the third pattern. -/
def searchTagged (openT closeT : String) (text : String) : Option String :=
  match splitAtFirst openT.data text.data with
  | none => none
  | some (_, r) =>
    match splitAtFirst closeT.data r with
    | none => none
    | some (interior, _) => some (pyStrip (String.mk interior))

def searchCodebaseTag (text : String) : Option String :=
  match splitAtFirst "<CODEBASE".data text.data with
  | none => none
  | some (_, r1) =>
    match splitAtFirst ['>'] r1 with
    | none => none
    | some (_, r2) =>
      match splitAtFirst "</CODEBASE>".data r2 with
      | none => none
      | some (interior, _) => some (pyStrip (String.mk interior))

/-- Model of `FileExtractor._extract_file_tree_from_text`. -/
def extract_file_tree_from_text (text : String) : Option String :=
  match searchTagged "<TEMPLATE_FILE_TREE>" "</TEMPLATE_FILE_TREE>" text with
  | some s => some s
  | none =>
    match searchTagged "<FILE_TREE>" "</FILE_TREE>" text with
    | some s => some s
    | none => searchCodebaseTag text

/-! ### Mapping merge (`dict.update`) -/
def keysOf (files : List (String × String)) : List String := files.map Prod.fst

/-- Python `d[k] = v` on an insertion-ordered dict: overwrite in place if
the key exists, else append. -/
def dictInsert (d : List (String × String)) (k v : String) : List (String × String) :=
  if k ∈ keysOf d then d.map (fun kv => if kv.1 = k then (k, v) else kv)
  else d ++ [(k, v)]

/-- Python `a.update(b)`. -/
def dictUpdate (a b : List (String × String)) : List (String × String) :=
  b.foldl (fun acc kv => dictInsert acc kv.1 kv.2) a

/-- Per-side pipeline of `extract_all` (lines 297-301 / 306-310 of the
source): run the heredoc extractor, then the structured extractor, and
merge with `dict.update`, so structured matches overwrite heredoc matches
on key collision. -/
def side_files (text : String) : List (String × String) :=
  dictUpdate (extract_files_from_text text) (extract_structured_files text)

/-! ### Sorting (Python `sorted`)

Python compares strings lexicographically by code point, and pairs
lexicographically component-wise.  `sortBy` is a stable insertion sort,
which produces the same list as Python's stable sort for these total
preorders; only permutation and ordering of the result matter to any
claim. -/
def lexLe : List Char → List Char → Bool
  | [], _ => true
  | _ :: _, [] => false
  | a :: as, b :: bs =>
    if a.val < b.val then true else if b.val < a.val then false else lexLe as bs

def lexLt : List Char → List Char → Bool
  | [], [] => false
  | [], _ :: _ => true
  | _ :: _, [] => false
  | a :: as, b :: bs =>
    if a.val < b.val then true else if b.val < a.val then false else lexLt as bs

def strLeB (a b : String) : Bool := lexLe a.data b.data

def pairLeB (a b : String × String) : Bool :=
  lexLt a.1.data b.1.data || (a.1.data == b.1.data && lexLe a.2.data b.2.data)

def insSortedBy (le : α → α → Bool) (x : α) : List α → List α
  | [] => [x]
  | y :: ys => if le y x then y :: insSortedBy le x ys else x :: y :: ys

def sortBy (le : α → α → Bool) (l : List α) : List α :=
  l.foldl (fun acc x => insSortedBy le x acc) []

/-! ### Report builder -/
/-- Identifying context printed in the report header; the source reads
these from `self` (log metadata and paths). -/
structure ReportCtx where
  chat_id : String
  action_key : String
  log_name : String
  output_dir : String

/-- The `"=" * 80` horizontal rule. -/
def hrule : String := String.mk (List.replicate 80 '=')

/-- Python `f"{n:,}"`: decimal digits grouped in threes with commas. -/
def chunk3 : List Char → List (List Char)
  | [] => []
  | [a] => [[a]]
  | [a, b] => [[a, b]]
  | a :: b :: c :: rest => [a, b, c] :: chunk3 rest

def commaFmt (n : Nat) : String :=
  String.mk (List.intercalate [','] (((chunk3 (natToDec n).data.reverse).reverse).map
    List.reverse))

/-- Components of a relative path in the sense of `pathlib.PurePosixPath(p).parts`:
split on `/`, discarding empty components and lone dots.  (Absolute paths
and the `IndexError` the source would raise on an empty component list are
outside every claim and not modelled.) -/
def splitSlashAux : List Char → List Char → List String
  | acc, [] => [String.mk acc.reverse]
  | acc, c :: cs =>
    if c = '/' then String.mk acc.reverse :: splitSlashAux [] cs
    else splitSlashAux (c :: acc) cs

def pathParts (p : String) : List String :=
  (splitSlashAux [] p.data).filter (fun s => s != "" && s != ".")

/-- Model of `FileExtractor._build_actual_tree`. -/
def build_actual_tree (files : List (String × String)) : String :=
  if files.isEmpty then "No files extracted"
  else
    let sortedKeys := sortBy strLeB (files.map Prod.fst)
    let entries := sortedKeys.map fun fp =>
      let parts := pathParts fp
      if parts.length == 1 then (".", fp)
      else (String.intercalate "/" parts.dropLast, (parts.getLast?).getD "")
    let dirs := sortBy strLeB (entries.map Prod.fst).dedup
    String.intercalate "\n" (dirs.flatMap fun d =>
      (if d == "." then [] else [d ++ "/"]) ++
      (sortBy strLeB ((entries.filter (fun e => e.1 == d)).map Prod.snd)).map fun fn =>
        if d == "." then "  " ++ fn else "  └── " ++ fn)

/-- Request-files section (lines 182-192 of the source). -/
def requestSection (files : List (String × String)) : List String :=
  if files.isEmpty then ["No files found in request"]
  else
    ["Total files extracted from request: " ++ natToDec files.length, "", "### File List:"] ++
    (sortBy pairLeB files).map
      (fun kv => "  - " ++ kv.1 ++ " (" ++ commaFmt kv.2.data.length ++ " bytes)") ++
    ["", "### Actual File Tree (from extracted files):", build_actual_tree files]

/-- Response-files section (lines 202-212 of the source). -/
def responseSection (files : List (String × String)) : List String :=
  if files.isEmpty then ["No files found in response"]
  else
    ["Total files generated in response: " ++ natToDec files.length, "", "### File List:"] ++
    (sortBy pairLeB files).map
      (fun kv => "  - " ++ kv.1 ++ " (" ++ commaFmt kv.2.data.length ++ " bytes)") ++
    ["", "### Actual File Tree (from generated files):", build_actual_tree files]

/-- Tree-metadata section (lines 214-222 of the source).  The guard
`if serialized_tree:` tests Python truthiness: the section is omitted both
when the tree is `None` and when it is the empty string. -/
def treeSection : Option String → List String
  | some t =>
    if t = "" then []
    else ["", hrule, "## SERIALIZED FILE TREE (from request metadata)", hrule, "", t]
  | none => []

/-- Python `sorted(set(request_files.keys()) & set(response_files.keys()))`. -/
def interKeys (request_files response_files : List (String × String)) : List String :=
  sortBy strLeB
    (((keysOf request_files).dedup).filter (fun k => decide (k ∈ keysOf response_files)))

/-- Comparison section of the report (lines 232-243 of the source): the
three count lines, then — only when the two key sets intersect — a blank
line, the warning line, and one `  - path` line per common path in sorted
order. -/
def comparisonLines (request_files response_files : List (String × String)) : List String :=
  let common := interKeys request_files response_files
  ["Request files:  " ++ natToDec request_files.length,
   "Response files: " ++ natToDec response_files.length,
   "Total files:    " ++ natToDec (request_files.length + response_files.length)] ++
  if common.isEmpty then []
  else
    ["", "⚠️  WARNING: " ++ natToDec common.length ++
      " files appear in both request and response:"] ++
    common.map (fun p => "  - " ++ p)

/-- All report lines in order, mirroring the successive appends of
`FileExtractor._generate_report`. -/
def reportLines (ctx : ReportCtx) (request_files response_files : List (String × String))
    (serialized_tree : Option String) : List String :=
  [hrule, "FILE EXTRACTION REPORT", hrule, "",
   "## Metadata",
   "  Chat ID:     " ++ ctx.chat_id,
   "  Action Key:  " ++ ctx.action_key,
   "  Log File:    " ++ ctx.log_name,
   "  Output Dir:  " ++ ctx.output_dir,
   "", hrule, "## REQUEST FILES (Serialized Input)", hrule, ""] ++
  requestSection request_files ++
  ["", hrule, "## RESPONSE FILES (AI Generated)", hrule, ""] ++
  responseSection response_files ++
  treeSection serialized_tree ++
  ["", hrule, "## COMPARISON", hrule, ""] ++
  comparisonLines request_files response_files ++
  ["", hrule, "## SUMMARY", hrule, "",
   "✓ Extraction completed successfully",
   "✓ Files saved to: " ++ ctx.output_dir,
   "✓ Report saved to: " ++ ctx.output_dir ++ "/REPORT.md",
   ""]

/-- Model of `FileExtractor._generate_report` (the `'\n'.join(lines)`). -/
def generate_report (ctx : ReportCtx) (request_files response_files : List (String × String))
    (serialized_tree : Option String) : String :=
  String.intercalate "\n" (reportLines ctx request_files response_files serialized_tree)

/-! ### Payload normalizer (`FileExtractor._parse_json_content`)

The normalizer calls the standard library's `json.loads` and then walks
the decoded value with Python lookups.  The decoded values are modelled
by `JValue`; lookups are modelled by total functions into
`Except PyErr _`, where an `error` is a raised Python exception.  The
source's `try` block catches exactly `(json.JSONDecodeError, KeyError,
IndexError)`; a `TypeError` (e.g. iterating a non-iterable, or `in` on an
integer) is not caught and escapes the function. -/
/-- JSON values as produced by `json.loads`.  Numbers are carried as their
lexeme: the tool only ever inspects the dynamic type of a number, never
its value, so no float semantics are needed.  Objects keep their raw
member list; duplicate keys are resolved on lookup (last wins), as in a
Python dict built by repeated assignment. -/
inductive JValue where
  | jnull
  | jbool (b : Bool)
  | jnum (lexeme : String)
  | jstr (s : String)
  | jarr (elems : List JValue)
  | jobj (pairs : List (String × JValue))

/-- Python exceptions that the normalizer's body can raise. -/
inductive PyErr where
  | typeErr
  | keyErr
  | idxErr

/-- Modelled from the spec: the envelope decoding "attempt to decode
`rawText` as a structured JSON value" is the standard library's
`json.loads`, which is not part of this repository.  `json_loads` is a
plain recursive-descent JSON reader.  Deviations, none of which any claim
exercises: `NaN`/`Infinity` extensions and unicode surrogate pairs are
not accepted, and unescaped control characters inside strings are not
rejected. -/
def jsonWsChar (c : Char) : Bool := c = ' ' || c = '\t' || c = '\n' || c = '\r'

def skipJWs (cs : List Char) : List Char := cs.dropWhile jsonWsChar

def hexVal (c : Char) : Option Nat :=
  let n := c.toNat
  if 48 ≤ n && n ≤ 57 then some (n - 48)
  else if 97 ≤ n && n ≤ 102 then some (n - 87)
  else if 65 ≤ n && n ≤ 70 then some (n - 55)
  else none

def parseStrBody : List Char → Option (List Char × List Char)
  | [] => none
  | '"' :: rest => some ([], rest)
  | '\\' :: '"' :: r => (parseStrBody r).map (fun pr => ('"' :: pr.1, pr.2))
  | '\\' :: '\\' :: r => (parseStrBody r).map (fun pr => ('\\' :: pr.1, pr.2))
  | '\\' :: '/' :: r => (parseStrBody r).map (fun pr => ('/' :: pr.1, pr.2))
  | '\\' :: 'n' :: r => (parseStrBody r).map (fun pr => ('\n' :: pr.1, pr.2))
  | '\\' :: 't' :: r => (parseStrBody r).map (fun pr => ('\t' :: pr.1, pr.2))
  | '\\' :: 'r' :: r => (parseStrBody r).map (fun pr => ('\r' :: pr.1, pr.2))
  | '\\' :: 'b' :: r => (parseStrBody r).map (fun pr => ('\x08' :: pr.1, pr.2))
  | '\\' :: 'f' :: r => (parseStrBody r).map (fun pr => ('\x0c' :: pr.1, pr.2))
  | '\\' :: 'u' :: h1 :: h2 :: h3 :: h4 :: r =>
    match hexVal h1, hexVal h2, hexVal h3, hexVal h4 with
    | some a, some b, some c, some d =>
      (parseStrBody r).map
        (fun pr => (Char.ofNat (4096 * a + 256 * b + 16 * c + d) :: pr.1, pr.2))
    | _, _, _, _ => none
  | '\\' :: _ => none
  | c :: rest => (parseStrBody rest).map (fun pr => (c :: pr.1, pr.2))

def parseFrac (cs : List Char) : Option (List Char × List Char) :=
  match cs with
  | '.' :: r =>
    let fs := r.takeWhile Char.isDigit
    if fs.isEmpty then none else some ('.' :: fs, r.drop fs.length)
  | _ => some ([], cs)

def parseExpPart (cs : List Char) : Option (List Char × List Char) :=
  match cs with
  | c :: r =>
    if c = 'e' || c = 'E' then
      let sgn : List Char × List Char :=
        match r with
        | '+' :: rr => (['+'], rr)
        | '-' :: rr => (['-'], rr)
        | _ => ([], r)
      let ds := sgn.2.takeWhile Char.isDigit
      if ds.isEmpty then none else some (c :: (sgn.1 ++ ds), sgn.2.drop ds.length)
    else some ([], cs)
  | [] => some ([], [])

def parseNumCore (cs : List Char) : Option (List Char × List Char) :=
  let ds := cs.takeWhile Char.isDigit
  if ds.isEmpty then none
  else if 1 < ds.length && ds.head? == some '0' then none
  else
    match parseFrac (cs.drop ds.length) with
    | none => none
    | some (f, r2) =>
      match parseExpPart r2 with
      | none => none
      | some (e, r3) => some (ds ++ f ++ e, r3)

def parseNumLex (cs : List Char) : Option (List Char × List Char) :=
  match cs with
  | '-' :: r => (parseNumCore r).map (fun pr => ('-' :: pr.1, pr.2))
  | _ => parseNumCore cs

/-- Recursive-descent JSON value reader.  `mode 0` reads one value,
`mode 1` reads the members of an array after the opening bracket,
`mode 2` reads the members of an object; the accumulators carry the
members read so far.  Recursion is structural on the fuel, which the
caller sizes so that it can never run out before the input does. -/
def parseJ : Nat → Nat → List JValue → List (String × JValue) → List Char →
    Option (JValue × List Char)
  | 0, _, _, _, _ => none
  | fuel + 1, 0, _, _, cs =>
    match skipJWs cs with
    | 'n' :: 'u' :: 'l' :: 'l' :: r => some (.jnull, r)
    | 't' :: 'r' :: 'u' :: 'e' :: r => some (.jbool true, r)
    | 'f' :: 'a' :: 'l' :: 's' :: 'e' :: r => some (.jbool false, r)
    | '"' :: r => (parseStrBody r).map (fun pr => (.jstr (String.mk pr.1), pr.2))
    | '[' :: r =>
      match skipJWs r with
      | ']' :: r2 => some (.jarr [], r2)
      | r2 => parseJ fuel 1 [] [] r2
    | '{' :: r =>
      match skipJWs r with
      | '}' :: r2 => some (.jobj [], r2)
      | r2 => parseJ fuel 2 [] [] r2
    | cs0 => (parseNumLex cs0).map (fun pr => (.jnum (String.mk pr.1), pr.2))
  | fuel + 1, 1, acc, _, cs =>
    match parseJ fuel 0 [] [] cs with
    | none => none
    | some (v, r1) =>
      match skipJWs r1 with
      | ',' :: r2 => parseJ fuel 1 (acc ++ [v]) [] r2
      | ']' :: r2 => some (.jarr (acc ++ [v]), r2)
      | _ => none
  | fuel + 1, _, _, oacc, cs =>
    match skipJWs cs with
    | '"' :: r =>
      match parseStrBody r with
      | none => none
      | some (kcs, r1) =>
        match skipJWs r1 with
        | ':' :: r2 =>
          match parseJ fuel 0 [] [] r2 with
          | none => none
          | some (v, r3) =>
            match skipJWs r3 with
            | ',' :: r4 => parseJ fuel 2 [] (oacc ++ [(String.mk kcs, v)]) r4
            | '}' :: r4 => some (.jobj (oacc ++ [(String.mk kcs, v)]), r4)
            | _ => none
        | _ => none
    | _ => none

/-- Model of `json.loads`: read one value, require only whitespace after
it; `none` is a raised `json.JSONDecodeError`. -/
def json_loads (s : String) : Option JValue :=
  match parseJ (2 * s.data.length + 4) 0 [] [] s.data with
  | some (v, rest) => if (skipJWs rest).isEmpty then some v else none
  | none => none

/-! Python lookups on decoded JSON values. -/
/-- Python `key in v` for a string key: dict key test, list membership
(string equality against string elements only — `==` across types is
`False`), substring test on strings; `TypeError` on the other types. -/
def pyIn (key : String) : JValue → Except PyErr Bool
  | .jobj kvs => .ok (kvs.any (fun kv => decide (kv.1 = key)))
  | .jarr xs => .ok (xs.any (fun x => match x with | .jstr s => decide (s = key) | _ => false))
  | .jstr s => .ok (occursB key.data s.data)
  | _ => .error .typeErr

/-- Python `v[key]` for a string key: dict lookup (`KeyError` when absent;
with duplicate source keys the last binding wins, as in a dict built by
repeated assignment); `TypeError` on every non-dict. -/
def pyGet (v : JValue) (key : String) : Except PyErr JValue :=
  match v with
  | .jobj kvs =>
    match kvs.reverse.find? (fun kv => decide (kv.1 = key)) with
    | some kv => .ok kv.2
    | none => .error .keyErr
  | _ => .error .typeErr

/-- Python `v[0]`: list indexing (`IndexError` when empty), string
indexing, `KeyError` on dicts (JSON object keys are strings, never `0`),
`TypeError` otherwise. -/
def pyIdx0 (v : JValue) : Except PyErr JValue :=
  match v with
  | .jarr (x :: _) => .ok x
  | .jarr [] => .error .idxErr
  | .jstr s =>
    match s.data with
    | c :: _ => .ok (.jstr (String.mk [c]))
    | [] => .error .idxErr
  | .jobj _ => .error .keyErr
  | _ => .error .typeErr

/-- Python `len(v)`: lists, strings and dicts (distinct keys); `TypeError`
otherwise. -/
def pyLen (v : JValue) : Except PyErr Nat :=
  match v with
  | .jarr xs => .ok xs.length
  | .jstr s => .ok s.data.length
  | .jobj kvs => .ok ((kvs.map Prod.fst).dedup).length
  | _ => .error .typeErr

/-- Python `for x in v`: lists yield elements, strings yield one-character
strings, dicts yield keys; `TypeError` otherwise. -/
def pyIterList (v : JValue) : Except PyErr (List JValue) :=
  match v with
  | .jarr xs => .ok xs
  | .jstr s => .ok (s.data.map (fun c => .jstr (String.mk [c])))
  | .jobj kvs => .ok (((kvs.map Prod.fst).dedup).map .jstr)
  | _ => .error .typeErr

/-- Elements handed to `str.join` must all be strings, else `TypeError`. -/
def asStrs : List JValue → Except PyErr (List String)
  | [] => .ok []
  | .jstr s :: rest => (asStrs rest).map (fun l => s :: l)
  | _ :: _ => .error .typeErr

/-- The request-side collection loop:
`for msg in msgs: if 'content' in msg: all_content.append(msg['content'])`. -/
def collectContents : List JValue → Except PyErr (List JValue)
  | [] => .ok []
  | msg :: rest =>
    match pyIn "content" msg with
    | .error e => .error e
    | .ok true =>
      match pyGet msg "content" with
      | .error e => .error e
      | .ok v => (collectContents rest).map (fun l => v :: l)
    | .ok false => collectContents rest

/-- The `elif 'message' in choice and 'content' in choice['message']`
branch; falling through returns the original content. -/
def elifMessage (choice : JValue) (content : String) : Except PyErr JValue :=
  match pyIn "message" choice with
  | .error e => .error e
  | .ok true =>
    match pyGet choice "message" with
    | .error e => .error e
    | .ok msg =>
      match pyIn "content" msg with
      | .error e => .error e
      | .ok true => pyGet msg "content"
      | .ok false => .ok (.jstr content)
  | .ok false => .ok (.jstr content)

/-- Body of the `try` block of `_parse_json_content`, after a successful
decode.  Every fall-through path is the trailing `return content`. -/
def pjcBody (parsed : JValue) (is_request : Bool) (content : String) : Except PyErr JValue :=
  match parsed with
  | .jobj _ =>
    if is_request then
      match pyIn "messages" parsed with
      | .error e => .error e
      | .ok true =>
        match pyGet parsed "messages" with
        | .error e => .error e
        | .ok msgsV =>
          match pyIterList msgsV with
          | .error e => .error e
          | .ok msgs =>
            match collectContents msgs with
            | .error e => .error e
            | .ok vs =>
              match asStrs vs with
              | .error e => .error e
              | .ok strs => .ok (.jstr (String.intercalate "\n\n" strs))
      | .ok false => .ok (.jstr content)
    else
      match pyIn "choices" parsed with
      | .error e => .error e
      | .ok true =>
        match pyGet parsed "choices" with
        | .error e => .error e
        | .ok ch =>
          match pyLen ch with
          | .error e => .error e
          | .ok n =>
            if 0 < n then
              match pyIdx0 ch with
              | .error e => .error e
              | .ok choice =>
                match pyIn "delta" choice with
                | .error e => .error e
                | .ok true =>
                  match pyGet choice "delta" with
                  | .error e => .error e
                  | .ok delta =>
                    match pyIn "content" delta with
                    | .error e => .error e
                    | .ok true => pyGet delta "content"
                    | .ok false => elifMessage choice content
                | .ok false => elifMessage choice content
            else .ok (.jstr content)
      | .ok false => .ok (.jstr content)
  | .jstr s => .ok (.jstr s)
  | _ => .ok (.jstr content)

/-- The whole `try` block: `none` is a raised `json.JSONDecodeError`. -/
def pjcAttempt (content : String) (is_request : Bool) : Option (Except PyErr JValue) :=
  (json_loads content).map (fun parsed => pjcBody parsed is_request content)

/-- Model of `FileExtractor._parse_json_content`.  The `except
(json.JSONDecodeError, KeyError, IndexError)` clause turns those three
failures into `return content`; a `TypeError` is not caught and
propagates out of the function, modelled as an `error` result. -/
def parse_json_content (content : String) (is_request : Bool) : Except PyErr JValue :=
  match pjcAttempt content is_request with
  | none => .ok (.jstr content)
  | some (.error .keyErr) => .ok (.jstr content)
  | some (.error .idxErr) => .ok (.jstr content)
  | some (.error .typeErr) => .error .typeErr
  | some (.ok v) => .ok v

/-! ### Theorems -/

theorem leadsWith_iff (pat cs : List Char) :
    leadsWith pat cs = true ↔ ∃ r, cs = pat ++ r := by
  induction pat generalizing cs with
  | nil => simp [leadsWith]
  | cons p ps ih =>
    cases cs with
    | nil => simp [leadsWith]
    | cons c cs =>
      simp only [leadsWith, Bool.and_eq_true, decide_eq_true_eq, ih, List.cons_append]
      constructor
      · rintro ⟨rfl, r, rfl⟩; exact ⟨r, rfl⟩
      · rintro ⟨r, h⟩
        cases h
        exact ⟨rfl, r, rfl⟩

theorem leadsWith_append (pat r : List Char) : leadsWith pat (pat ++ r) = true :=
  (leadsWith_iff pat (pat ++ r)).2 ⟨r, rfl⟩

theorem leadsWith_length {pat cs : List Char} (h : leadsWith pat cs = true) :
    pat.length ≤ cs.length := by
  obtain ⟨r, rfl⟩ := (leadsWith_iff pat cs).1 h
  simp

theorem splitAtFirst_of_leadsWith {pat cs : List Char} (h : leadsWith pat cs = true) :
    splitAtFirst pat cs = some ([], cs.drop pat.length) := by
  cases cs with
  | nil =>
    obtain ⟨r, hr⟩ := (leadsWith_iff pat []).1 h
    have hp : pat = [] := by
      cases pat with
      | nil => rfl
      | cons a as => simp at hr
    subst hp; rfl
  | cons c cs => simp [splitAtFirst, h]

theorem splitAtFirst_none_drop {pat cs : List Char} (h : splitAtFirst pat cs = none)
    (i : Nat) : leadsWith pat (cs.drop i) = false := by
  induction cs generalizing i with
  | nil =>
    simp only [splitAtFirst] at h
    rcases hb : leadsWith pat [] with _ | _
    · simp [List.drop_nil, hb]
    · simp [hb] at h
  | cons c cs ih =>
    simp only [splitAtFirst] at h
    rcases hb : leadsWith pat (c :: cs) with _ | _
    · simp only [hb, Bool.false_eq_true, if_false] at h
      cases i with
      | zero => simpa using hb
      | succ i =>
        have hn : splitAtFirst pat cs = none := by
          rcases hs : splitAtFirst pat cs with _ | ⟨b, r⟩
          · rfl
          · rw [hs] at h; simp at h
        simpa using ih hn i
    · simp [hb] at h

theorem splitAtFirst_some_eq {pat cs b r : List Char}
    (h : splitAtFirst pat cs = some (b, r)) : cs = b ++ pat ++ r := by
  induction cs generalizing b with
  | nil =>
    simp only [splitAtFirst] at h
    rcases hb : leadsWith pat [] with _ | _
    · simp [hb] at h
    · obtain ⟨r', hr'⟩ := (leadsWith_iff pat []).1 hb
      have hp : pat = [] := by
        cases pat with
        | nil => rfl
        | cons a as => simp at hr'
      subst hp
      simp only [hb, if_true, List.drop_nil, Option.some.injEq, Prod.mk.injEq] at h
      obtain ⟨rfl, rfl⟩ := h
      rfl
  | cons c cs ih =>
    simp only [splitAtFirst] at h
    rcases hb : leadsWith pat (c :: cs) with _ | _
    · simp only [hb, Bool.false_eq_true, if_false] at h
      rcases hs : splitAtFirst pat cs with _ | ⟨b', r'⟩
      · rw [hs] at h; simp at h
      · rw [hs] at h
        simp only [Option.some.injEq, Prod.mk.injEq] at h
        obtain ⟨hb', hr'⟩ := h
        subst hb'
        cases hr'
        have := ih hs
        simp [this]
    · simp only [hb, if_true, Option.some.injEq, Prod.mk.injEq] at h
      obtain ⟨r', hr'⟩ := (leadsWith_iff pat (c :: cs)).1 hb
      obtain ⟨hb', hrr⟩ := h
      subst hb'
      rw [hr'] at hrr ⊢
      simp only [List.nil_append]
      rw [← hrr, List.drop_append_of_le_length (Nat.le_refl _)]
      simp

/-- Main splitting lemma: if no occurrence of `pat` starts strictly inside
`a`, then the first occurrence of `pat` in `a ++ pat ++ r` is the explicit
one, so a lazy group captures exactly `a`. -/
theorem splitAtFirst_append_pat (pat a r : List Char)
    (h : ∀ i, i < a.length → leadsWith pat ((a ++ pat ++ r).drop i) = false) :
    splitAtFirst pat (a ++ pat ++ r) = some (a, r) := by
  induction a with
  | nil =>
    simp only [List.nil_append]
    rw [splitAtFirst_of_leadsWith (leadsWith_append pat r)]
    rw [List.drop_append_of_le_length (Nat.le_refl _)]
    simp
  | cons c a ih =>
    have h0 : leadsWith pat (c :: (a ++ pat ++ r)) = false := by
      simpa using h 0 (Nat.succ_pos _)
    cases hcs : c :: (a ++ pat ++ r) with
    | nil => simp at hcs
    | cons d ds =>
      obtain ⟨rfl, rfl⟩ : c = d ∧ a ++ pat ++ r = ds := by
        constructor <;> [exact (List.cons.injEq _ _ _ _ ▸ hcs).1;
          exact (List.cons.injEq _ _ _ _ ▸ hcs).2]
      show splitAtFirst pat (c :: (a ++ pat ++ r)) = some (c :: a, r)
      simp only [splitAtFirst, h0, Bool.false_eq_true, if_false]
      rw [ih (fun i hi => by simpa using h (i + 1) (Nat.succ_lt_succ hi))]

theorem splitAtFirst_append_length {pat cs b r : List Char} (hpat : pat ≠ [])
    (h : splitAtFirst pat cs = some (b, r)) : r.length < cs.length := by
  have := splitAtFirst_some_eq h
  subst this
  have : 0 < pat.length := List.length_pos.2 hpat
  simp only [List.length_append]
  omega

theorem decVal_append_digit (xs : List Char) (c : Char) :
    decVal (xs ++ [c]) = 10 * decVal xs + (c.toNat - 48) := by
  simp [decVal, List.foldl_append]

theorem digitChar_toNat {d : Nat} (h : d < 10) : (Nat.digitChar d).toNat = 48 + d := by
  interval_cases d <;> rfl

theorem decVal_natToDecAux (fuel n : Nat) (h : n < fuel) :
    decVal (natToDecAux fuel n) = n := by
  induction fuel generalizing n with
  | zero => omega
  | succ fuel ih =>
    by_cases hn : n = 0
    · subst hn; simp [natToDecAux, decVal]
    · have hd : n / 10 < fuel := by
        have h1 : n / 10 < n := Nat.div_lt_self (Nat.pos_of_ne_zero hn) (by omega)
        omega
      rw [natToDecAux, if_neg hn, decVal_append_digit, ih _ hd,
        digitChar_toNat (Nat.mod_lt n (by omega))]
      omega

theorem decVal_natToDec (n : Nat) : decVal (natToDec n).data = n := by
  by_cases hn : n = 0
  · subst hn; rfl
  · rw [natToDec, if_neg hn]
    exact decVal_natToDecAux (n + 1) n (Nat.lt_succ_self n)

theorem natToDec_injective : Function.Injective natToDec := by
  intro m n h
  have := decVal_natToDec m
  rw [h, decVal_natToDec] at this
  omega

theorem reserveName_injective (base ext : String) :
    Function.Injective (reserveName base ext) := by
  intro m n h
  apply natToDec_injective
  have h' := congrArg String.data h
  simp only [reserveName, String.data_append, List.append_assoc] at h'
  have h1 := List.append_cancel_left h'
  have h2 := List.append_cancel_left h1
  exact String.ext (List.append_cancel_right h2)

theorem reserveLoop_not_mem (base ext : String) (keys : List String)
    (counter fuel : Nat)
    (h : ∃ j, j < fuel ∧ reserveName base ext (counter + j) ∉ keys) :
    reserveLoop base ext keys counter fuel ∉ keys := by
  induction fuel generalizing counter with
  | zero => obtain ⟨j, hj, _⟩ := h; omega
  | succ fuel ih =>
    rw [reserveLoop]
    by_cases hc : reserveName base ext counter ∈ keys
    · rw [if_pos hc]
      apply ih
      obtain ⟨j, hj, hout⟩ := h
      cases j with
      | zero => simp at hout; exact absurd hc hout
      | succ j =>
        refine ⟨j, by omega, ?_⟩
        have he : counter + 1 + j = counter + (j + 1) := by omega
        rw [he]; exact hout
    · rw [if_neg hc]; exact hc

theorem reserve_exists_fresh (base ext : String) (keys : List String) :
    ∃ j, j < keys.length + 1 ∧ reserveName base ext (1 + j) ∉ keys := by
  by_contra hall
  push_neg at hall
  set L : List String :=
    (List.range (keys.length + 1)).map (fun j => reserveName base ext (1 + j)) with hL
  have hmem : L ⊆ keys := by
    intro x hx
    rw [hL] at hx
    simp only [List.mem_map, List.mem_range] at hx
    obtain ⟨j, hj, rfl⟩ := hx
    exact hall j hj
  have hnd : L.Nodup := by
    rw [hL]
    refine (List.nodup_range _).map ?_
    intro a b hab
    have := reserveName_injective base ext hab
    omega
  have hlen : L.length = keys.length + 1 := by simp [hL]
  have := (List.Nodup.subperm hnd hmem).length_le
  omega

theorem reserve_not_mem (path : String) (keys : List String) :
    reserve path keys ∉ keys := by
  rw [reserve]
  by_cases hp : path ∈ keys
  · rw [if_pos hp]
    exact reserveLoop_not_mem _ _ _ _ _ (reserve_exists_fresh _ _ keys)
  · rwa [if_neg hp]

theorem reserveLoop_least (base ext : String) (keys : List String)
    (counter fuel n : Nat) (hcn : counter ≤ n) (hfuel : n - counter < fuel)
    (hout : reserveName base ext n ∉ keys)
    (hmin : ∀ m, counter ≤ m → m < n → reserveName base ext m ∈ keys) :
    reserveLoop base ext keys counter fuel = reserveName base ext n := by
  induction fuel generalizing counter with
  | zero => omega
  | succ fuel ih =>
    rw [reserveLoop]
    by_cases hc : counter = n
    · subst hc; rw [if_neg hout]
    · have hlt : counter < n := by omega
      rw [if_pos (hmin counter (Nat.le_refl _) hlt)]
      exact ih (counter + 1) (by omega) (by omega)
        (fun m hm hmn => hmin m (by omega) hmn)

theorem heredocAt_rest_length {cs : List Char} {pc : String × String} {rest : List Char}
    (h : heredocAt cs = some (pc, rest)) : rest.length < cs.length := by
  simp only [heredocAt] at h
  split at h
  · rename_i h1
    have hcs : 6 ≤ cs.length := leadsWith_length h1
    split at h
    · exact absurd h (by simp)
    · split at h
      · split at h
        · rename_i content rest' hs
          simp only [Option.some.injEq, Prod.mk.injEq] at h
          obtain ⟨-, rfl⟩ := h
          have hlt := splitAtFirst_append_length (show nlEOF ≠ [] by decide) hs
          simp only [List.length_drop] at hlt ⊢
          omega
        · exact absurd h (by simp)
      · exact absurd h (by simp)
  · exact absurd h (by simp)

theorem insSortedBy_perm (le : α → α → Bool) (x : α) (l : List α) :
    List.Perm (insSortedBy le x l) (x :: l) := by
  induction l with
  | nil => simp [insSortedBy]
  | cons y ys ih =>
    simp only [insSortedBy]
    split
    · exact (ih.cons y).trans (List.Perm.swap x y ys)
    · exact List.Perm.refl _

theorem sortBy_foldl_perm (le : α → α → Bool) (l acc : List α) :
    List.Perm (l.foldl (fun a x => insSortedBy le x a) acc) (acc ++ l) := by
  induction l generalizing acc with
  | nil => simp
  | cons x l ih =>
    have h1 : (x :: l).foldl (fun a x => insSortedBy le x a) acc
        = l.foldl (fun a x => insSortedBy le x a) (insSortedBy le x acc) := rfl
    rw [h1]
    exact (ih _).trans (((insSortedBy_perm le x acc).append_right l).trans
      List.perm_middle.symm)

theorem sortBy_perm (le : α → α → Bool) (l : List α) : List.Perm (sortBy le l) l := by
  simpa using sortBy_foldl_perm le l []

/-! ### Helper lemmas about the scanners -/
theorem mk_data (s : String) : String.mk s.data = s := rfl

theorem takeWhile_app (p : Char → Bool) (a : List Char) (d : Char) (t : List Char)
    (ha : ∀ c ∈ a, p c = true) (hd : p d = false) :
    (a ++ d :: t).takeWhile p = a := by
  induction a with
  | nil => simp [List.takeWhile_cons, hd]
  | cons x xs ih =>
    have hx : p x = true := ha x (List.mem_cons_self x xs)
    simp only [List.cons_append, List.takeWhile_cons, hx, if_true]
    rw [ih (fun c hc => ha c (List.mem_cons_of_mem x hc))]

theorem dropWhile_app (p : Char → Bool) (a : List Char) (d : Char) (t : List Char)
    (ha : ∀ c ∈ a, p c = true) (hd : p d = false) :
    (a ++ d :: t).dropWhile p = d :: t := by
  induction a with
  | nil => simp [List.dropWhile_cons, hd]
  | cons x xs ih =>
    have hx : p x = true := ha x (List.mem_cons_self x xs)
    simp only [List.cons_append, List.dropWhile_cons, hx, if_true]
    exact ih (fun c hc => ha c (List.mem_cons_of_mem x hc))

theorem dropWhile_head_false (p : Char → Bool) (l : List Char) :
    ∀ d t, l.dropWhile p = d :: t → p d = false := by
  induction l with
  | nil => intro d t h; simp at h
  | cons x xs ih =>
    intro d t h
    rw [List.dropWhile_cons] at h
    by_cases hx : p x = true
    · rw [if_pos hx] at h; exact ih d t h
    · rw [if_neg hx] at h
      cases h
      exact Bool.eq_false_iff.2 hx

theorem dropWhile_app_of_ne_nil (p : Char → Bool) (a X : List Char)
    (h : a.dropWhile p ≠ []) : (a ++ X).dropWhile p = a.dropWhile p ++ X := by
  induction a with
  | nil => simp at h
  | cons x xs ih =>
    rw [List.cons_append, List.dropWhile_cons, List.dropWhile_cons]
    by_cases hx : p x = true
    · rw [if_pos hx, if_pos hx]
      rw [List.dropWhile_cons, if_pos hx] at h
      exact ih h
    · rw [if_neg hx, if_neg hx, List.cons_append]

theorem leadsWith_head {c : Char} {p cs : List Char} (h : leadsWith (c :: p) cs = true) :
    ∃ t, cs = c :: t := by
  obtain ⟨r, rfl⟩ := (leadsWith_iff _ _).1 h
  exact ⟨p ++ r, rfl⟩

theorem data_append_cons (s t : String) (c : Char) (cs : List Char) (h : s.data = c :: cs) :
    (s ++ t).data = c :: (cs ++ t.data) := by
  rw [String.data_append, h]; rfl

/-- No occurrence of the pattern can start strictly inside a prefix whose
characters all differ from the pattern's first character. -/
theorem no_occ_of_head_ne (c : Char) (p a X : List Char) (ha : ∀ d ∈ a, d ≠ c) :
    ∀ i, i < a.length → leadsWith (c :: p) ((a ++ X).drop i) = false := by
  intro i hi
  rw [List.drop_append_of_le_length (Nat.le_of_lt hi)]
  obtain ⟨d, t, hd⟩ : ∃ d t, a.drop i = d :: t := by
    rcases h : a.drop i with _ | ⟨d, t⟩
    · exfalso
      have := congrArg List.length h
      simp only [List.length_drop, List.length_nil] at this
      omega
    · exact ⟨d, t, rfl⟩
  have hdi : d ∈ a.drop i := by rw [hd]; exact List.mem_cons_self d t
  have hdm : d ∈ a := (List.drop_sublist i a).mem hdi
  have hne : c ≠ d := fun he => (ha d hdm) he.symm
  rw [hd, List.cons_append]
  simp [leadsWith, hne]

/-- The closing delimiter `\nEOF` cannot straddle the boundary between the
heredoc content and the explicit closing that follows it: the pattern has
no self-overlap. -/
theorem no_straddle_nlEOF (content post' : List Char)
    (hnc : occursB nlEOF content = false) :
    ∀ i, i < content.length → leadsWith nlEOF ((content ++ nlEOF ++ post').drop i) = false := by
  intro i hi
  rcases hlw : leadsWith nlEOF ((content ++ nlEOF ++ post').drop i) with _ | _
  · rfl
  exfalso
  rw [List.append_assoc, List.drop_append_of_le_length (Nat.le_of_lt hi)] at hlw
  obtain ⟨r, hr⟩ := (leadsWith_iff _ _).1 hlw
  have hne : splitAtFirst nlEOF content = none := by
    rcases hs : splitAtFirst nlEOF content with _ | pr
    · rfl
    · rw [occursB, hs] at hnc; simp at hnc
  set d := content.drop i with hd
  have hdl : d.length = content.length - i := by simp [hd]
  by_cases hlen : 4 ≤ d.length
  · have hinner : leadsWith nlEOF d = true := by
      have h4 : (d ++ (nlEOF ++ post')).take 4 = (nlEOF ++ r).take 4 := by rw [hr]
      rw [List.take_append_of_le_length hlen,
        List.take_append_of_le_length (by decide : 4 ≤ nlEOF.length)] at h4
      have hnl4 : nlEOF.take 4 = nlEOF := by decide
      rw [hnl4] at h4
      rw [(leadsWith_iff _ _)]
      exact ⟨d.drop 4, by rw [← h4, List.take_append_drop]⟩
    rw [splitAtFirst_none_drop hne i] at hinner
    exact absurd hinner (by simp)
  · have hm1 : 1 ≤ d.length := by
      rw [hdl]; omega
    have hnl4 : nlEOF.length = 4 := by decide
    have hdrop : (d ++ (nlEOF ++ post')).drop d.length = (nlEOF ++ r).drop d.length := by
      rw [hr]
    rw [List.drop_left,
      List.drop_append_of_le_length (by rw [hnl4]; omega : d.length ≤ nlEOF.length)] at hdrop
    have hm3 : d.length ≤ 3 := by omega
    interval_cases h : d.length
    · have : nlEOF.drop 1 = ['E', 'O', 'F'] := by decide
      rw [this] at hdrop
      have := congrArg List.head? hdrop
      simp [nlEOF] at this
    · have : nlEOF.drop 2 = ['O', 'F'] := by decide
      rw [this] at hdrop
      have := congrArg List.head? hdrop
      simp [nlEOF] at this
    · have : nlEOF.drop 3 = ['F'] := by decide
      rw [this] at hdrop
      have := congrArg List.head? hdrop
      simp [nlEOF] at this

/-- The closing code fence cannot straddle the boundary between the
content and the explicit closing fence when the content neither contains a
fence nor ends in a backtick. -/
theorem no_straddle_fence (content post' : List Char)
    (hcf : occursB ffence content = false)
    (hcl : ∀ c, content.getLast? = some c → c ≠ '\x60') :
    ∀ i, i < content.length → leadsWith ffence ((content ++ ffence ++ post').drop i) = false := by
  intro i hi
  rcases hlw : leadsWith ffence ((content ++ ffence ++ post').drop i) with _ | _
  · rfl
  exfalso
  rw [List.append_assoc, List.drop_append_of_le_length (Nat.le_of_lt hi)] at hlw
  obtain ⟨r, hr⟩ := (leadsWith_iff _ _).1 hlw
  have hne : splitAtFirst ffence content = none := by
    rcases hs : splitAtFirst ffence content with _ | pr
    · rfl
    · rw [occursB, hs] at hcf; simp at hcf
  set d := content.drop i with hd
  have hdl : d.length = content.length - i := by simp [hd]
  by_cases hlen : 3 ≤ d.length
  · have hinner : leadsWith ffence d = true := by
      have h3 : (d ++ (ffence ++ post')).take 3 = (ffence ++ r).take 3 := by rw [hr]
      rw [List.take_append_of_le_length hlen,
        List.take_append_of_le_length (by decide : 3 ≤ ffence.length)] at h3
      have hf3 : ffence.take 3 = ffence := by decide
      rw [hf3] at h3
      rw [(leadsWith_iff _ _)]
      exact ⟨d.drop 3, by rw [← h3, List.take_append_drop]⟩
    rw [splitAtFirst_none_drop hne i] at hinner
    exact absurd hinner (by simp)
  · have hm1 : 1 ≤ d.length := by rw [hdl]; omega
    have hff3 : ffence.length = 3 := by decide
    have htk : d = ffence.take d.length := by
      have h4 : (d ++ (ffence ++ post')).take d.length = (ffence ++ r).take d.length := by
        rw [hr]
      rw [List.take_left,
        List.take_append_of_le_length (by rw [hff3]; omega : d.length ≤ ffence.length)] at h4
      exact h4
    have hlast : content.getLast? = d.getLast? := by
      conv_lhs => rw [← List.take_append_drop i content]
      rw [← hd]
      refine List.getLast?_append_of_ne_nil _ ?_
      intro hnil
      rw [hnil] at hdl
      simp at hdl
      omega
    have hm2 : d.length ≤ 2 := by omega
    interval_cases h : d.length
    · have : d = ['\x60'] := by rw [htk]; decide
      rw [this] at hlast
      exact hcl '\x60' hlast rfl
    · have : d = ['\x60', '\x60'] := by rw [htk]; decide
      rw [this] at hlast
      exact hcl '\x60' hlast rfl

theorem takeWhile_app2 (p : Char → Bool) (a b : List Char)
    (ha : ∀ c ∈ a, p c = true) (hb : ∀ d, b.head? = some d → p d = false) :
    (a ++ b).takeWhile p = a := by
  induction a with
  | nil =>
    simp only [List.nil_append]
    rcases b with _ | ⟨d, t⟩
    · rfl
    · simp [List.takeWhile_cons, hb d rfl]
  | cons x xs ih =>
    have hx : p x = true := ha x (List.mem_cons_self x xs)
    simp only [List.cons_append, List.takeWhile_cons, hx, if_true]
    rw [ih (fun c hc => ha c (List.mem_cons_of_mem x hc))]

theorem dropWhile_app2 (p : Char → Bool) (a b : List Char)
    (ha : ∀ c ∈ a, p c = true) (hb : ∀ d, b.head? = some d → p d = false) :
    (a ++ b).dropWhile p = b := by
  induction a with
  | nil =>
    simp only [List.nil_append]
    rcases b with _ | ⟨d, t⟩
    · rfl
    · simp [List.dropWhile_cons, hb d rfl]
  | cons x xs ih =>
    have hx : p x = true := ha x (List.mem_cons_self x xs)
    simp only [List.cons_append, List.dropWhile_cons, hx, if_true]
    exact ih (fun c hc => ha c (List.mem_cons_of_mem x hc))

theorem occursB_cons_false {pat : List Char} {c : Char} {cs : List Char}
    (h : occursB pat (c :: cs) = false) : occursB pat cs = false := by
  rcases hs : splitAtFirst pat cs with _ | ⟨b, r⟩
  · rw [occursB, hs]; rfl
  · exfalso
    rw [occursB] at h
    rcases hlw : leadsWith pat (c :: cs) with _ | _
    · simp [splitAtFirst, hlw, hs] at h
    · simp [splitAtFirst, hlw] at h

theorem occursB_leadsWith_false {pat cs : List Char} (h : occursB pat cs = false) :
    leadsWith pat cs = false := by
  rcases hs : splitAtFirst pat cs with _ | pr
  · simpa using splitAtFirst_none_drop hs 0
  · rw [occursB, hs] at h; simp at h

theorem scanHeredocF_nil (fuel : Nat) : scanHeredocF fuel [] = [] := by
  cases fuel <;> rfl

theorem scanHeredocF_no_occ : ∀ fuel cs, occursB catMark cs = false →
    scanHeredocF fuel cs = [] := by
  intro fuel
  induction fuel with
  | zero => intro cs _; rfl
  | succ fuel ih =>
    intro cs h
    cases cs with
    | nil => rfl
    | cons c cs' =>
      have hat : heredocAt (c :: cs') = none := by
        simp [heredocAt, occursB_leadsWith_false h]
      simp only [scanHeredocF, hat]
      exact ih cs' (occursB_cons_false h)

theorem scanHeredocF_cons_some {fuel : Nat} {cs : List Char} {pc : String × String}
    {rest : List Char} (hne : cs ≠ []) (h : heredocAt cs = some (pc, rest)) :
    scanHeredocF (fuel + 1) cs = pc :: scanHeredocF fuel rest := by
  cases cs with
  | nil => exact absurd rfl hne
  | cons c cs' => simp [scanHeredocF, h]

/-- A well-formed heredoc block at the head of the text matches, capturing
the declared path and the enclosed content, provided no line of the
content starts with `EOF` (no internal `"\nEOF"` occurrence). -/
theorem heredocAt_block (path content : String) (post : List Char)
    (hp : path.data ≠ []) (hpc : ∀ c ∈ path.data, pathChar c = true)
    (hnc : occursB nlEOF content.data = false) :
    heredocAt (catMark ++ (path.data ++ (heredocMid ++ (content.data ++ (nlEOF ++ post)))))
      = some ((path, content), post) := by
  have h1 : leadsWith catMark
      (catMark ++ (path.data ++ (heredocMid ++ (content.data ++ (nlEOF ++ post))))) = true :=
    leadsWith_append _ _
  have hmhead : ∀ d : Char,
      (heredocMid ++ (content.data ++ (nlEOF ++ post))).head? = some d → pathChar d = false := by
    intro d hd
    have : d = ' ' := by
      have hm : (heredocMid ++ (content.data ++ (nlEOF ++ post))).head? = some ' ' := rfl
      rw [hm] at hd
      exact (Option.some.injEq _ _ ▸ hd.symm)
    rw [this]; rfl
  have htw : (path.data ++ (heredocMid ++ (content.data ++ (nlEOF ++ post)))).takeWhile pathChar
      = path.data := takeWhile_app2 _ _ _ hpc hmhead
  have hpe : path.data.isEmpty = false := by
    rcases hq : path.data with _ | ⟨a, l⟩
    · exact absurd hq hp
    · rfl
  have h2 : leadsWith heredocMid (heredocMid ++ (content.data ++ (nlEOF ++ post))) = true :=
    leadsWith_append _ _
  have hsp : splitAtFirst nlEOF (content.data ++ (nlEOF ++ post)) = some (content.data, post) := by
    have := splitAtFirst_append_pat nlEOF content.data post
      (no_straddle_nlEOF content.data post hnc)
    rwa [List.append_assoc] at this
  rw [heredocAt]
  simp only [h1, List.drop_left, htw, hpe, h2, hsp, Bool.false_eq_true, if_false, if_true]

theorem lookup_append_left {k : String} {l₁ l₂ : List (String × String)}
    (h : k ∈ keysOf l₁) : List.lookup k (l₁ ++ l₂) = List.lookup k l₁ := by
  induction l₁ with
  | nil => simp [keysOf] at h
  | cons a l ih =>
    by_cases he : k = a.1
    · simp [List.lookup, he]
    · have hm : k ∈ keysOf l := by
        rcases List.mem_cons.1 h with h1 | h1
        · exact absurd h1 he
        · exact h1
      simp [List.lookup, he, ih hm]

/-! ### Claim theorems -/
/-- C1, counterexample: the text consists of one well-formed heredoc block
for `a.txt` whose enclosed content is `hello\nEOFX` and whose closing line
is exactly `EOF`, yet the extractor maps `a.txt` to `hello`: the regex's
closing delimiter `\nEOF` also fires on the content line `EOFX`, which
merely begins with `EOF`. -/
theorem C1_counterexample :
    extract_files_from_text ("cat > a.txt << \x27EOF\x27\nhello\nEOFX\nEOF")
      = [("a.txt", "hello")] ∧ ("hello" : String) ≠ "hello\nEOFX" :=
  ⟨by decide, by decide⟩

/-- C1, amended: for text that begins with a well-formed heredoc block —
`cat > <path> << \x27EOF\x27`, content, a closing line exactly `EOF` —
where no line of the content begins with `EOF`, and whose remainder
contains no further `cat > ` marker, the extractor yields exactly the
entry mapping the path to the enclosed content byte for byte, excluding
the newline before the closing delimiter. -/
theorem C1_heredoc_extracts_content (path content post : String)
    (hp : path.data ≠ [])
    (hpc : ∀ c ∈ path.data, pathChar c = true)
    (hnc : occursB nlEOF content.data = false)
    (hpost : occursB catMark post.data = false) :
    extract_files_from_text
      ("cat > " ++ path ++ " << \x27EOF\x27\n" ++ content ++ "\nEOF" ++ post)
      = [(path, content)] := by
  have hdata : ("cat > " ++ path ++ " << \x27EOF\x27\n" ++ content ++ "\nEOF" ++ post).data
      = catMark ++ (path.data ++ (heredocMid ++ (content.data ++ (nlEOF ++ post.data)))) := by
    simp only [String.data_append, List.append_assoc]
    rfl
  rw [extract_files_from_text, hdata]
  have hne : catMark ++ (path.data ++ (heredocMid ++ (content.data ++ (nlEOF ++ post.data))))
      ≠ [] := by
    intro h
    have := congrArg List.length h
    simp [catMark] at this
  rw [scanHeredocF_cons_some hne (heredocAt_block path content post.data hp hpc hnc),
    scanHeredocF_no_occ _ _ hpost]
  rfl

/-- C1, witness for the amended theorem. -/
theorem C1_witness :
    extract_files_from_text
      ("cat > " ++ "main.py" ++ " << \x27EOF\x27\n" ++ "print(1)" ++ "\nEOF" ++ "\ndone")
      = [("main.py", "print(1)")] :=
  C1_heredoc_extracts_content "main.py" "print(1)" "\ndone"
    (by decide) (by decide) (by decide) (by decide)

theorem names_le (base ext : String) (keys : List String) (k : Nat)
    (h : ∀ m, 1 ≤ m → m < 1 + k → reserveName base ext m ∈ keys) : k ≤ keys.length := by
  set L : List String := (List.range k).map (fun j => reserveName base ext (1 + j)) with hL
  have hmem : L ⊆ keys := by
    intro x hx
    rw [hL] at hx
    simp only [List.mem_map, List.mem_range] at hx
    obtain ⟨j, hj, rfl⟩ := hx
    exact h (1 + j) (by omega) (by omega)
  have hnd : L.Nodup := by
    rw [hL]
    refine (List.nodup_range _).map ?_
    intro a b hab
    have := reserveName_injective base ext hab
    omega
  have := (List.Nodup.subperm hnd hmem).length_le
  simpa [hL] using this

/-- C2: the deduplication policy keeps a fresh candidate unchanged;
a colliding candidate becomes `stem_vN.extension` (stem and extension
split from the original candidate by `os.path.splitext`) for the least
`N ≥ 1` whose name is unused; and two heredoc blocks that both declare
`a/b.txt` produce exactly the entries `a/b.txt` and `a/b_v1.txt`, each
with its own content. -/
theorem C2_dedup_policy :
    (∀ path keys, path ∉ keys → reserve path keys = path) ∧
    (∀ (path : String) (keys : List String) (n : Nat), path ∈ keys → 1 ≤ n →
      reserveName (splitext path).1 (splitext path).2 n ∉ keys →
      (∀ m, 1 ≤ m → m < n → reserveName (splitext path).1 (splitext path).2 m ∈ keys) →
      reserve path keys = reserveName (splitext path).1 (splitext path).2 n) ∧
    extract_files_from_text
        ("cat > a/b.txt << \x27EOF\x27\nC1\nEOF\ncat > a/b.txt << \x27EOF\x27\nC2\nEOF")
      = [("a/b.txt", "C1"), ("a/b_v1.txt", "C2")] := by
  refine ⟨?_, ?_, by decide⟩
  · intro path keys hpk
    rw [reserve, if_neg hpk]
  · intro path keys n hpk hn hout hmin
    have hk : n - 1 ≤ keys.length :=
      names_le _ _ keys (n - 1) (fun m h1 h2 => hmin m h1 (by omega))
    simp only [reserve, hpk, if_true]
    exact reserveLoop_least _ _ keys 1 (keys.length + 1) n hn (by omega) hout
      (fun m h1 h2 => hmin m h1 h2)

/-- C2, witness: with `a/b.txt` and `a/b_v1.txt` already taken, the
candidate `a/b.txt` is renamed with the least free counter, 2. -/
theorem C2_witness :
    reserve "a/b.txt" ["a/b.txt", "a/b_v1.txt"] = "a/b_v2.txt" := by
  have h := C2_dedup_policy.2.1 "a/b.txt" ["a/b.txt", "a/b_v1.txt"] 2
    (by decide) (by decide) (by decide)
    (by intro m h1 h2; interval_cases m; decide)
  rw [h]; decide

/-- C10: against any finite set of taken keys the rename loop finds an
unused counter within `keys.length + 1` trials (the candidate names are
pairwise distinct, so the loop terminates and the fuel built into
`reserve` can never be exhausted); the key it exits with is not already
in the mapping; and inserting under the reserved key never changes the
content stored under any existing key. -/
theorem C10_reserve_fresh_no_overwrite :
    (∀ (base ext : String) (keys : List String),
      ∃ j, j < keys.length + 1 ∧ reserveName base ext (1 + j) ∉ keys) ∧
    (∀ path keys, reserve path keys ∉ keys) ∧
    (∀ (files : List (String × String)) (p c k : String), k ∈ keysOf files →
      List.lookup k (insertFile files p c) = List.lookup k files) := by
  refine ⟨reserve_exists_fresh, reserve_not_mem, ?_⟩
  intro files p c k hk
  exact lookup_append_left hk

/-- C10, witness: inserting a colliding path leaves the existing entry
intact. -/
theorem C10_witness :
    List.lookup "a" (insertFile [("a", "x")] "a" "y") = some "x" := by
  rw [C10_reserve_fresh_no_overwrite.2.2 [("a", "x")] "a" "y" "a" (by decide)]
  decide

/-- C8: the report builder is a pure function: equal inputs produce
byte-identical report text. -/
theorem C8_report_deterministic (ctx ctx' : ReportCtx)
    (req req' res res' : List (String × String)) (tree tree' : Option String)
    (h1 : ctx = ctx') (h2 : req = req') (h3 : res = res') (h4 : tree = tree') :
    generate_report ctx req res tree = generate_report ctx' req' res' tree' := by
  rw [h1, h2, h3, h4]

/-- C8, witness. -/
theorem C8_witness :
    generate_report ⟨"c1", "a1", "log.json", "out"⟩ [("x.py", "A")] [] none
      = generate_report ⟨"c1", "a1", "log.json", "out"⟩ [("x.py", "A")] [] none :=
  C8_report_deterministic _ _ _ _ _ _ _ _ rfl rfl rfl rfl

theorem lookup_cons (k : String) (a : String × String) (d : List (String × String)) :
    List.lookup k (a :: d) = if k = a.1 then some a.2 else List.lookup k d := by
  rcases a with ⟨x, y⟩
  by_cases h : k = x
  · have hb : (k == x) = true := beq_iff_eq.mpr h
    simp [List.lookup, hb, h]
  · have hb : (k == x) = false := beq_eq_false_iff_ne.mpr h
    simp [List.lookup, hb, h]

theorem lookup_none_of_not_mem {k : String} {d : List (String × String)}
    (h : k ∉ keysOf d) : List.lookup k d = none := by
  induction d with
  | nil => rfl
  | cons a d' ih =>
    have h1 : k ≠ a.1 := fun he => h (he ▸ List.mem_cons_self a.1 (keysOf d'))
    have h2 : k ∉ keysOf d' := fun hm => h (List.mem_cons_of_mem a.1 hm)
    rw [lookup_cons, if_neg h1, ih h2]

theorem lookup_some_of_mem {k : String} {d : List (String × String)}
    (h : k ∈ keysOf d) : ∃ v, List.lookup k d = some v := by
  induction d with
  | nil => simp [keysOf] at h
  | cons a d' ih =>
    by_cases he : k = a.1
    · exact ⟨a.2, by rw [lookup_cons, if_pos he]⟩
    · have hm : k ∈ keysOf d' := by
        rcases List.mem_cons.1 h with h1 | h1
        · exact absurd h1 he
        · exact h1
      obtain ⟨v, hv⟩ := ih hm
      exact ⟨v, by rw [lookup_cons, if_neg he, hv]⟩

theorem lookup_overwrite_ne (d : List (String × String)) (k' v k : String) (hk : k ≠ k') :
    List.lookup k (d.map (fun kv => if kv.1 = k' then (k', v) else kv))
      = List.lookup k d := by
  induction d with
  | nil => rfl
  | cons a d' ih =>
    rw [List.map_cons]
    by_cases ha : a.1 = k'
    · have hka : k ≠ a.1 := by rw [ha]; exact hk
      rw [if_pos ha, lookup_cons, lookup_cons, if_neg hk, if_neg hka, ih]
    · rw [if_neg ha, lookup_cons, lookup_cons]
      by_cases hk2 : k = a.1
      · rw [if_pos hk2, if_pos hk2]
      · rw [if_neg hk2, if_neg hk2, ih]

theorem lookup_overwrite (d : List (String × String)) (k' v : String)
    (hm : k' ∈ keysOf d) :
    List.lookup k' (d.map (fun kv => if kv.1 = k' then (k', v) else kv)) = some v := by
  induction d with
  | nil => simp [keysOf] at hm
  | cons a d' ih =>
    rw [List.map_cons]
    by_cases ha : a.1 = k'
    · rw [if_pos ha, lookup_cons, if_pos rfl]
    · have hm' : k' ∈ keysOf d' := by
        rcases List.mem_cons.1 hm with h1 | h1
        · exact absurd h1.symm ha
        · exact h1
      have hk : k' ≠ a.1 := fun he => ha he.symm
      rw [if_neg ha, lookup_cons, if_neg hk, ih hm']

theorem lookup_append_single_self {k v : String} {d : List (String × String)}
    (h : k ∉ keysOf d) : List.lookup k (d ++ [(k, v)]) = some v := by
  induction d with
  | nil => rw [List.nil_append, lookup_cons, if_pos rfl]
  | cons a d' ih =>
    have h1 : k ≠ a.1 := fun he => h (he ▸ List.mem_cons_self a.1 (keysOf d'))
    have h2 : k ∉ keysOf d' := fun hm => h (List.mem_cons_of_mem a.1 hm)
    rw [List.cons_append, lookup_cons, if_neg h1, ih h2]

theorem lookup_append_single_ne {k k' v : String} (d : List (String × String))
    (hk : k ≠ k') : List.lookup k (d ++ [(k', v)]) = List.lookup k d := by
  induction d with
  | nil => rw [List.nil_append, lookup_cons, if_neg hk]
  | cons a d' ih =>
    rw [List.cons_append, lookup_cons, lookup_cons]
    by_cases he : k = a.1
    · rw [if_pos he, if_pos he]
    · rw [if_neg he, if_neg he, ih]

theorem lookup_dictInsert (d : List (String × String)) (k' v k : String) :
    List.lookup k (dictInsert d k' v) = if k = k' then some v else List.lookup k d := by
  rw [dictInsert]
  by_cases hm : k' ∈ keysOf d
  · rw [if_pos hm]
    by_cases hk : k = k'
    · subst hk; rw [if_pos rfl]; exact lookup_overwrite d k v hm
    · rw [if_neg hk]; exact lookup_overwrite_ne d k' v k hk
  · rw [if_neg hm]
    by_cases hk : k = k'
    · subst hk; rw [if_pos rfl]; exact lookup_append_single_self hm
    · rw [if_neg hk]; exact lookup_append_single_ne d hk

theorem lookup_dictUpdate (a b : List (String × String)) (hb : (keysOf b).Nodup)
    (k : String) :
    List.lookup k (dictUpdate a b)
      = match List.lookup k b with
        | some v => some v
        | none => List.lookup k a := by
  induction b generalizing a with
  | nil => rfl
  | cons kv b' ih =>
    have hbl : (kv.1 :: keysOf b').Nodup := hb
    have hb' : (keysOf b').Nodup := (List.nodup_cons.1 hbl).2
    have hstep : dictUpdate a (kv :: b') = dictUpdate (dictInsert a kv.1 kv.2) b' := rfl
    rw [hstep, ih (dictInsert a kv.1 kv.2) hb']
    by_cases hk : k = kv.1
    · subst hk
      have hnb' : kv.1 ∉ keysOf b' := (List.nodup_cons.1 hbl).1
      rw [lookup_none_of_not_mem hnb', lookup_dictInsert, if_pos rfl,
        lookup_cons, if_pos rfl]
    · rw [lookup_dictInsert, if_neg hk]
      have : List.lookup k (kv :: b') = List.lookup k b' := by
        rw [lookup_cons, if_neg hk]
      rw [this]

theorem dedupFold_keys_nodup (raw : List (String × String)) :
    ∀ init : List (String × String), (keysOf init).Nodup →
      (keysOf (raw.foldl (fun fs pc => insertFile fs pc.1 pc.2) init)).Nodup := by
  induction raw with
  | nil => intro init h; exact h
  | cons pc raw' ih =>
    intro init h
    rw [List.foldl_cons]
    apply ih
    show (keysOf (init ++ [(reserve pc.1 (init.map Prod.fst), pc.2)])).Nodup
    rw [keysOf, List.map_append, List.map_cons, List.map_nil, List.nodup_append]
    refine ⟨h, List.nodup_singleton _, ?_⟩
    rw [List.disjoint_singleton]
    exact reserve_not_mem pc.1 (init.map Prod.fst)

theorem extract_structured_keys_nodup (text : String) :
    (keysOf (extract_structured_files text)).Nodup :=
  dedupFold_keys_nodup _ [] List.nodup_nil

theorem mem_keysOf_iff_lookup (k : String) (d : List (String × String)) :
    k ∈ keysOf d ↔ (List.lookup k d).isSome := by
  induction d with
  | nil => simp [keysOf]
  | cons a d' ih =>
    have hcons : keysOf (a :: d') = a.1 :: keysOf d' := rfl
    rw [hcons, List.mem_cons, lookup_cons]
    by_cases he : k = a.1
    · simp [he]
    · rw [if_neg he]
      simp [he, ih]

theorem mem_keysOf_dictUpdate (a b : List (String × String))
    (hb : (keysOf b).Nodup) (k : String) :
    k ∈ keysOf (dictUpdate a b) ↔ k ∈ keysOf a ∨ k ∈ keysOf b := by
  rw [mem_keysOf_iff_lookup, lookup_dictUpdate a b hb, mem_keysOf_iff_lookup k a,
    mem_keysOf_iff_lookup k b]
  rcases hl : List.lookup k b with _ | v <;> simp

/-- C5: on each side, the final mapping is the heredoc mapping updated by
the structured mapping: a key of the structured extractor keeps the
structured content (structured results overwrite heredoc results), any
other key keeps its heredoc content unchanged, and the merged key set is
exactly the union of the two extractors' key sets — keys present in only
one extractor's mapping are kept, and no other key appears. -/
theorem C5_merge_precedence : ∀ (text : String) (k : String),
    (k ∈ keysOf (extract_structured_files text) →
      List.lookup k (side_files text) = List.lookup k (extract_structured_files text)) ∧
    (k ∉ keysOf (extract_structured_files text) →
      List.lookup k (side_files text) = List.lookup k (extract_files_from_text text)) ∧
    (k ∈ keysOf (side_files text) ↔
      k ∈ keysOf (extract_files_from_text text) ∨
        k ∈ keysOf (extract_structured_files text)) := by
  intro text k
  have hb := extract_structured_keys_nodup text
  have hu := lookup_dictUpdate (extract_files_from_text text)
    (extract_structured_files text) hb k
  refine ⟨?_, ?_, ?_⟩
  · intro hk
    obtain ⟨v, hv⟩ := lookup_some_of_mem hk
    rw [side_files, hu, hv]
  · intro hk
    rw [side_files, hu, lookup_none_of_not_mem hk]
  · rw [side_files]
    exact mem_keysOf_dictUpdate _ _ hb k

/-- C5, witness: when both extractors yield `a.py`, the merged side keeps
the structured content. -/
theorem C5_witness :
    List.lookup "a.py" (side_files ("cat > a.py << \x27EOF\x27\nH\nEOF\n" ++
        "#### filePath\n```\na.py\n```\n#### fileContents\n```\nS\n```"))
      = List.lookup "a.py" (extract_structured_files ("cat > a.py << \x27EOF\x27\nH\nEOF\n" ++
        "#### filePath\n```\na.py\n```\n#### fileContents\n```\nS\n```")) :=
  (C5_merge_precedence _ "a.py").1 (by decide)

theorem searchTagged_none_of_no_open (openT closeT text : String)
    (h : occursB openT.data text.data = false) :
    searchTagged openT closeT text = none := by
  have hs : splitAtFirst openT.data text.data = none := by
    rcases hq : splitAtFirst openT.data text.data with _ | pr
    · rfl
    · rw [occursB, hq] at h; simp at h
  rw [searchTagged]
  simp only [hs]

theorem searchTagged_block (openT closeT a suffix : String) (p : List Char)
    (hcl : closeT.data = '<' :: p) (ha : ∀ c ∈ a.data, c ≠ '<') :
    searchTagged openT closeT (openT ++ a ++ closeT ++ suffix) = some (pyStrip a) := by
  have hdata : (openT ++ a ++ closeT ++ suffix).data
      = openT.data ++ (a.data ++ (closeT.data ++ suffix.data)) := by
    simp only [String.data_append, List.append_assoc]
  have hocc : ∀ i, i < a.data.length →
      leadsWith closeT.data
        ((a.data ++ closeT.data ++ suffix.data).drop i) = false := by
    intro i hi
    rw [List.append_assoc, hcl]
    exact no_occ_of_head_ne '<' _ a.data _ ha i hi
  rw [searchTagged, hdata]
  simp only [splitAtFirst_of_leadsWith
    (leadsWith_append openT.data (a.data ++ (closeT.data ++ suffix.data))),
    List.drop_left]
  rw [← List.append_assoc]
  simp only [splitAtFirst_append_pat _ _ _ hocc]

theorem searchCodebase_block (attrs a : String)
    (hattr : ∀ c ∈ attrs.data, c ≠ '>')
    (ha : ∀ c ∈ a.data, c ≠ '<') :
    searchCodebaseTag ("<CODEBASE" ++ attrs ++ ">" ++ a ++ "</CODEBASE>")
      = some (pyStrip a) := by
  have hdata : ("<CODEBASE" ++ attrs ++ ">" ++ a ++ "</CODEBASE>").data
      = "<CODEBASE".data ++
          (attrs.data ++ (['>'] ++ (a.data ++ "</CODEBASE>".data))) := by
    simp only [String.data_append, List.append_assoc]
  have h2 : splitAtFirst ['>'] (attrs.data ++ (['>'] ++ (a.data ++ "</CODEBASE>".data)))
      = some (attrs.data, a.data ++ "</CODEBASE>".data) := by
    have hocc : ∀ i, i < attrs.data.length →
        leadsWith ['>']
          ((attrs.data ++ ['>'] ++ (a.data ++ "</CODEBASE>".data)).drop i) = false := by
      intro i hi
      rw [List.append_assoc]
      exact no_occ_of_head_ne '>' [] attrs.data _ hattr i hi
    have h := splitAtFirst_append_pat ['>'] attrs.data (a.data ++ "</CODEBASE>".data) hocc
    rwa [List.append_assoc] at h
  have h3 : splitAtFirst "</CODEBASE>".data (a.data ++ "</CODEBASE>".data)
      = some (a.data, []) := by
    have hocc : ∀ i, i < a.data.length →
        leadsWith "</CODEBASE>".data
          ((a.data ++ "</CODEBASE>".data ++ []).drop i) = false := by
      have hc : "</CODEBASE>".data = '<' :: "/CODEBASE>".data := rfl
      intro i hi
      rw [List.append_assoc, hc]
      exact no_occ_of_head_ne '<' _ a.data _ ha i hi
    have h := splitAtFirst_append_pat "</CODEBASE>".data a.data [] hocc
    simpa using h
  rw [searchCodebaseTag, hdata]
  simp only [splitAtFirst_of_leadsWith
    (leadsWith_append "<CODEBASE".data
      (attrs.data ++ (['>'] ++ (a.data ++ "</CODEBASE>".data)))),
    List.drop_left, h2, h3]

/-- C6: the tree locator is absent exactly when none of the three tag
conventions matches; the result at every priority level: a
first-convention match anywhere wins outright; when the first convention
is absent, a second-convention match is returned; when the first and
second are absent, a third-convention match is returned; and for
witnessing families at each level, text carrying a block of that
convention (whose interior has no tag-opening character, with the
higher-priority conventions absent from the text) locates that block's
interior, trimmed. -/
theorem C6_tree_priority :
    (∀ text : String, extract_file_tree_from_text text = none ↔
      (searchTagged "<TEMPLATE_FILE_TREE>" "</TEMPLATE_FILE_TREE>" text = none ∧
        searchTagged "<FILE_TREE>" "</FILE_TREE>" text = none ∧
        searchCodebaseTag text = none)) ∧
    (∀ (text : String) (s : String),
      searchTagged "<TEMPLATE_FILE_TREE>" "</TEMPLATE_FILE_TREE>" text = some s →
      extract_file_tree_from_text text = some s) ∧
    (∀ (text : String) (s : String),
      searchTagged "<TEMPLATE_FILE_TREE>" "</TEMPLATE_FILE_TREE>" text = none →
      searchTagged "<FILE_TREE>" "</FILE_TREE>" text = some s →
      extract_file_tree_from_text text = some s) ∧
    (∀ (text : String) (s : String),
      searchTagged "<TEMPLATE_FILE_TREE>" "</TEMPLATE_FILE_TREE>" text = none →
      searchTagged "<FILE_TREE>" "</FILE_TREE>" text = none →
      searchCodebaseTag text = some s →
      extract_file_tree_from_text text = some s) ∧
    (∀ a suffix : String, (∀ c ∈ a.data, c ≠ '<') →
      extract_file_tree_from_text
        ("<TEMPLATE_FILE_TREE>" ++ a ++ "</TEMPLATE_FILE_TREE>" ++ suffix)
        = some (pyStrip a)) ∧
    (∀ a suffix : String, (∀ c ∈ a.data, c ≠ '<') →
      occursB "<TEMPLATE_FILE_TREE>".data
        ("<FILE_TREE>" ++ a ++ "</FILE_TREE>" ++ suffix).data = false →
      extract_file_tree_from_text ("<FILE_TREE>" ++ a ++ "</FILE_TREE>" ++ suffix)
        = some (pyStrip a)) ∧
    (∀ attrs a : String, (∀ c ∈ attrs.data, c ≠ '>') → (∀ c ∈ a.data, c ≠ '<') →
      occursB "<TEMPLATE_FILE_TREE>".data
        ("<CODEBASE" ++ attrs ++ ">" ++ a ++ "</CODEBASE>").data = false →
      occursB "<FILE_TREE>".data
        ("<CODEBASE" ++ attrs ++ ">" ++ a ++ "</CODEBASE>").data = false →
      extract_file_tree_from_text ("<CODEBASE" ++ attrs ++ ">" ++ a ++ "</CODEBASE>")
        = some (pyStrip a)) := by
  refine ⟨?_, ?_, ?_, ?_, ?_, ?_, ?_⟩
  · intro text
    rcases h1 : searchTagged "<TEMPLATE_FILE_TREE>" "</TEMPLATE_FILE_TREE>" text with _ | s1 <;>
      rcases h2 : searchTagged "<FILE_TREE>" "</FILE_TREE>" text with _ | s2 <;>
        simp [extract_file_tree_from_text, h1, h2]
  · intro text s h
    simp [extract_file_tree_from_text, h]
  · intro text s h1 h2
    simp [extract_file_tree_from_text, h1, h2]
  · intro text s h1 h2 h3
    simp [extract_file_tree_from_text, h1, h2, h3]
  · intro a suffix ha
    have hs1 := searchTagged_block "<TEMPLATE_FILE_TREE>" "</TEMPLATE_FILE_TREE>" a suffix
      "/TEMPLATE_FILE_TREE>".data rfl ha
    simp [extract_file_tree_from_text, hs1]
  · intro a suffix ha hocc
    have h1 : searchTagged "<TEMPLATE_FILE_TREE>" "</TEMPLATE_FILE_TREE>"
        ("<FILE_TREE>" ++ a ++ "</FILE_TREE>" ++ suffix) = none :=
      searchTagged_none_of_no_open _ _ _ hocc
    have h2 := searchTagged_block "<FILE_TREE>" "</FILE_TREE>" a suffix
      "/FILE_TREE>".data rfl ha
    simp [extract_file_tree_from_text, h1, h2]
  · intro attrs a hattr ha hno1 hno2
    have h1 : searchTagged "<TEMPLATE_FILE_TREE>" "</TEMPLATE_FILE_TREE>"
        ("<CODEBASE" ++ attrs ++ ">" ++ a ++ "</CODEBASE>") = none :=
      searchTagged_none_of_no_open _ _ _ hno1
    have h2 : searchTagged "<FILE_TREE>" "</FILE_TREE>"
        ("<CODEBASE" ++ attrs ++ ">" ++ a ++ "</CODEBASE>") = none :=
      searchTagged_none_of_no_open _ _ _ hno2
    have h3 := searchCodebase_block attrs a hattr ha
    simp [extract_file_tree_from_text, h1, h2, h3]

/-- C6, witness: a first-priority interior wins over a following
second-priority block; a second-priority block locates its interior when
the first convention is absent; a third-priority block locates its
interior when the first two are absent; each interior is trimmed. -/
theorem C6_witness :
    extract_file_tree_from_text
      ("<TEMPLATE_FILE_TREE>" ++ " tree " ++ "</TEMPLATE_FILE_TREE>" ++
        "<FILE_TREE>other</FILE_TREE>")
      = some (pyStrip " tree ") ∧
    extract_file_tree_from_text ("<FILE_TREE>" ++ " ft " ++ "</FILE_TREE>" ++ "tail")
      = some (pyStrip " ft ") ∧
    extract_file_tree_from_text ("<CODEBASE" ++ " id=1" ++ ">" ++ " c " ++ "</CODEBASE>")
      = some (pyStrip " c ") :=
  ⟨C6_tree_priority.2.2.2.2.1 " tree " "<FILE_TREE>other</FILE_TREE>" (by decide),
   C6_tree_priority.2.2.2.2.2.1 " ft " "tail" (by decide) (by decide),
   C6_tree_priority.2.2.2.2.2.2 " id=1" " c " (by decide) (by decide) (by decide) (by decide)⟩

/-- C9: raw text that fails to decode as JSON, or decodes to a value that
is neither an object nor a string, is returned unchanged on both sides. -/
theorem C9_normalizer_fallback (raw : String) (b : Bool)
    (h : json_loads raw = none ∨
      ∃ v, json_loads raw = some v ∧ (∀ kvs, v ≠ JValue.jobj kvs) ∧
        (∀ s, v ≠ JValue.jstr s)) :
    parse_json_content raw b = .ok (.jstr raw) := by
  rcases h with h | ⟨v, hv, hno, hns⟩
  · simp [parse_json_content, pjcAttempt, h]
  · cases v with
    | jobj kvs => exact absurd rfl (hno kvs)
    | jstr s => exact absurd rfl (hns s)
    | jnull => simp [parse_json_content, pjcAttempt, hv, pjcBody]
    | jbool bb => simp [parse_json_content, pjcAttempt, hv, pjcBody]
    | jnum lx => simp [parse_json_content, pjcAttempt, hv, pjcBody]
    | jarr xs => simp [parse_json_content, pjcAttempt, hv, pjcBody]

/-- C9, witness. -/
theorem C9_witness :
    parse_json_content "plain, not json" true = .ok (.jstr "plain, not json") :=
  C9_normalizer_fallback "plain, not json" true (Or.inl rfl)

/-- C3, counterexample: a decoded request object with an empty `messages`
list — one of the claim's own examples of a lookup failure — returns the
empty string, not the raw text; and a request object whose `messages`
value is not iterable raises an uncaught `TypeError`, so normalization
can raise. -/
theorem C3_counterexample :
    parse_json_content "\x7b\"messages\": []\x7d" true = .ok (.jstr "") ∧
    ("" : String) ≠ "\x7b\"messages\": []\x7d" ∧
    parse_json_content "\x7b\"messages\": 1\x7d" true = .error .typeErr :=
  ⟨rfl, by decide, rfl⟩

/-- C3, amended: exactly the failures named in the `except` clause —
decode failure, `KeyError`, `IndexError` — are caught and yield the raw
text unchanged; a `TypeError` from a wrong-shape lookup is not caught,
and an object with a `messages` key returns the joined message contents
(possibly empty) rather than the raw text. -/
theorem C3_caught_errors (raw : String) (b : Bool) :
    (pjcAttempt raw b = none → parse_json_content raw b = .ok (.jstr raw)) ∧
    (∀ e, pjcAttempt raw b = some (.error e) → e ≠ .typeErr →
      parse_json_content raw b = .ok (.jstr raw)) := by
  constructor
  · intro h; simp [parse_json_content, h]
  · intro e h he
    cases e with
    | typeErr => exact absurd rfl he
    | keyErr => simp [parse_json_content, h]
    | idxErr => simp [parse_json_content, h]

/-- C3, witness: `choices` bound to an object makes `choices[0]` raise
`KeyError`, which is caught and yields the raw text. -/
theorem C3_witness :
    parse_json_content "\x7b\"choices\": \x7b\"a\": 1\x7d\x7d" false
      = .ok (.jstr "\x7b\"choices\": \x7b\"a\": 1\x7d\x7d") :=
  (C3_caught_errors _ false).2 .keyErr rfl (fun h => nomatch h)

theorem str_ne_of_head {s t : String} {c d : Char} {cs ds : List Char}
    (hs : s.data = c :: cs) (ht : t.data = d :: ds) (h : c ≠ d) : s ≠ t := by
  intro he
  rw [he, ht] at hs
  injection hs with h1 _
  exact h h1.symm

theorem interKeys_mem (req res : List (String × String)) (p : String) :
    p ∈ interKeys req res ↔ (p ∈ keysOf req ∧ p ∈ keysOf res) := by
  rw [interKeys, (sortBy_perm _ _).mem_iff, List.mem_filter, List.mem_dedup]
  simp

theorem interKeys_nodup (req res : List (String × String)) :
    (interKeys req res).Nodup := by
  rw [interKeys, (sortBy_perm _ _).nodup_iff]
  exact ((keysOf req).nodup_dedup).filter _

theorem interKeys_count (req res : List (String × String)) (p : String) :
    (interKeys req res).count p
      = if p ∈ keysOf req ∧ p ∈ keysOf res then 1 else 0 := by
  by_cases h : p ∈ keysOf req ∧ p ∈ keysOf res
  · rw [if_pos h]
    have hm : p ∈ interKeys req res := (interKeys_mem req res p).2 h
    have h1 := List.nodup_iff_count_le_one.1 (interKeys_nodup req res) p
    have h2 := List.count_pos_iff.2 hm
    omega
  · rw [if_neg h]
    exact List.count_eq_zero.2 (fun hm => h ((interKeys_mem req res p).1 hm))

theorem item_injective : Function.Injective (fun q : String => "  - " ++ q) := by
  intro x y h
  have := congrArg String.data h
  simp only [String.data_append] at this
  exact String.ext (List.append_cancel_left this)

/-- C7: the comparison section of the report lists a path under the
overlap warning exactly once if it is a key of both sides and not at all
otherwise; the warning (the line opening with the warning sign) is
present exactly when the two key sets intersect; and the full report
contains the comparison section as a contiguous block. -/
theorem C7_overlap_warning : ∀ (req res : List (String × String)) (p : String),
    ((comparisonLines req res).count ("  - " ++ p)
      = if p ∈ keysOf req ∧ p ∈ keysOf res then 1 else 0) ∧
    ((∃ l ∈ comparisonLines req res, l.data.head? = some '⚠') ↔
      ∃ q, q ∈ keysOf req ∧ q ∈ keysOf res) ∧
    (∀ (ctx : ReportCtx) (tree : Option String), ∃ pre post,
      reportLines ctx req res tree = pre ++ comparisonLines req res ++ post) := by
  intro req res p
  have hitem : ∀ q : String, ("  - " ++ q).data = ' ' :: (" - ".data ++ q.data) :=
    fun q => data_append_cons _ _ _ _ rfl
  have hreq : ∀ n : String, ("Request files:  " ++ n).data
      = 'R' :: ("equest files:  ".data ++ n.data) := fun n => data_append_cons _ _ _ _ rfl
  have hres : ∀ n : String, ("Response files: " ++ n).data
      = 'R' :: ("esponse files: ".data ++ n.data) := fun n => data_append_cons _ _ _ _ rfl
  have htot : ∀ n : String, ("Total files:    " ++ n).data
      = 'T' :: ("otal files:    ".data ++ n.data) := fun n => data_append_cons _ _ _ _ rfl
  have hwarnd : ∀ x y : String, ("⚠️  WARNING: " ++ x ++ y).data
      = '⚠' :: (("️  WARNING: ".data ++ x.data) ++ y.data) := fun x y =>
    data_append_cons _ _ _ _ (data_append_cons _ _ _ _ rfl)
  have hni1 : ∀ n, ("Request files:  " ++ n) ≠ ("  - " ++ p) :=
    fun n => str_ne_of_head (hreq n) (hitem p) (by decide)
  have hni2 : ∀ n, ("Response files: " ++ n) ≠ ("  - " ++ p) :=
    fun n => str_ne_of_head (hres n) (hitem p) (by decide)
  have hni3 : ∀ n, ("Total files:    " ++ n) ≠ ("  - " ++ p) :=
    fun n => str_ne_of_head (htot n) (hitem p) (by decide)
  have hni4 : ("" : String) ≠ ("  - " ++ p) := by
    intro he
    have := congrArg String.data he
    rw [hitem p] at this
    simp at this
  have hni5 : ∀ x y, ("⚠️  WARNING: " ++ x ++ y) ≠ ("  - " ++ p) :=
    fun x y => str_ne_of_head (hwarnd x y) (hitem p) (by decide)
  refine ⟨?_, ?_, ?_⟩
  · rcases hl : interKeys req res with _ | ⟨q0, qrest⟩
    · simp only [comparisonLines, hl, List.isEmpty_nil, if_true, List.append_nil]
      rw [List.count_cons, List.count_cons, List.count_cons, List.count_nil,
        beq_eq_false_iff_ne.mpr (hni1 _), beq_eq_false_iff_ne.mpr (hni2 _),
        beq_eq_false_iff_ne.mpr (hni3 _)]
      have hno : ¬(p ∈ keysOf req ∧ p ∈ keysOf res) := by
        intro h
        have := (interKeys_mem req res p).2 h
        rw [hl] at this
        simp at this
      rw [if_neg hno]
      simp
    · simp only [comparisonLines, hl, List.isEmpty_cons, Bool.false_eq_true, if_false]
      have hmap := List.count_map_of_injective (q0 :: qrest)
        (fun q : String => "  - " ++ q) item_injective p
      rw [List.count_append, List.count_cons, List.count_cons, List.count_cons,
        List.count_nil, beq_eq_false_iff_ne.mpr (hni1 _),
        beq_eq_false_iff_ne.mpr (hni2 _), beq_eq_false_iff_ne.mpr (hni3 _),
        List.count_append, List.count_cons, List.count_cons, List.count_nil,
        beq_eq_false_iff_ne.mpr hni4, beq_eq_false_iff_ne.mpr (hni5 _ _),
        hmap, ← hl, interKeys_count req res p]
      by_cases h : p ∈ keysOf req ∧ p ∈ keysOf res <;> simp [h]
  · constructor
    · rintro ⟨l, hl, hh⟩
      rcases hq : interKeys req res with _ | ⟨q0, qrest⟩
      · exfalso
        simp only [comparisonLines, hq, List.isEmpty_nil, if_true, List.append_nil,
          List.mem_cons, List.not_mem_nil, or_false] at hl
        rcases hl with rfl | rfl | rfl
        · rw [hreq] at hh
          simp only [List.head?_cons, Option.some.injEq] at hh
          exact absurd hh (by decide)
        · rw [hres] at hh
          simp only [List.head?_cons, Option.some.injEq] at hh
          exact absurd hh (by decide)
        · rw [htot] at hh
          simp only [List.head?_cons, Option.some.injEq] at hh
          exact absurd hh (by decide)
      · refine ⟨q0, (interKeys_mem req res q0).1 ?_⟩
        rw [hq]; exact List.mem_cons_self _ _
    · rintro ⟨q, hq⟩
      have hm : q ∈ interKeys req res := (interKeys_mem req res q).2 hq
      rcases hl : interKeys req res with _ | ⟨q0, qrest⟩
      · rw [hl] at hm; simp at hm
      · refine ⟨"⚠️  WARNING: " ++ natToDec (q0 :: qrest).length ++
          " files appear in both request and response:", ?_, by rw [hwarnd]; rfl⟩
        simp only [comparisonLines, hl, List.isEmpty_cons, Bool.false_eq_true, if_false]
        simp
  · intro ctx tree
    exact ⟨_, _, rfl⟩

/-- C7, witness: with `{"x.py": "A"}` and `{"x.py": "B"}`, the comparison
section lists `x.py` under the warning exactly once. -/
theorem C7_witness :
    (comparisonLines [("x.py", "A")] [("x.py", "B")]).count ("  - " ++ "x.py") = 1 := by
  have h := (C7_overlap_warning [("x.py", "A")] [("x.py", "B")] "x.py").1
  rw [if_pos (by decide)] at h
  exact h

theorem scanStructF_nil (fuel : Nat) : scanStructF fuel [] = [] := by
  cases fuel <;> rfl

theorem scanStructF_cons_some {fuel : Nat} {cs : List Char} {pc : String × String}
    {rest : List Char} (hne : cs ≠ []) (h : structuredAt cs = some (pc, rest)) :
    scanStructF (fuel + 1) cs = pc :: scanStructF fuel rest := by
  cases cs with
  | nil => exact absurd rfl hne
  | cons c cs' => simp [scanStructF, h]

theorem scanStructF_no_occ : ∀ fuel cs, occursB fpMark cs = false →
    scanStructF fuel cs = [] := by
  intro fuel
  induction fuel with
  | zero => intro cs _; rfl
  | succ fuel ih =>
    intro cs h
    cases cs with
    | nil => rfl
    | cons c cs' =>
      have hat : structuredAt (c :: cs') = none := by
        simp [structuredAt, occursB_leadsWith_false h]
      simp only [scanStructF, hat]
      exact ih cs' (occursB_cons_false h)

theorem getLast?_cons_some (x : Char) (l : List Char) : ∃ e, (x :: l).getLast? = some e := by
  induction l generalizing x with
  | nil => exact ⟨x, rfl⟩
  | cons y l ih =>
    obtain ⟨e, he⟩ := ih y
    exact ⟨e, by rw [List.getLast?_cons_cons]; exact he⟩

theorem mem_of_getLast?_some {e : Char} {l : List Char} (h : l.getLast? = some e) :
    e ∈ l := by
  induction l with
  | nil => simp at h
  | cons y t ih =>
    rcases t with _ | ⟨z, t'⟩
    · have : y = e := by
        have hy : ([y] : List Char).getLast? = some y := rfl
        rw [hy] at h
        injection h
      rw [this]; exact List.mem_cons_self _ _
    · rw [List.getLast?_cons_cons] at h
      exact List.mem_cons_of_mem y (ih h)

theorem stripL_of_trimmed (l : List Char)
    (hh : ∀ c, l.head? = some c → isPySpace c = false)
    (hl : ∀ c, l.getLast? = some c → isPySpace c = false) :
    stripL l = l := by
  rw [stripL]
  have h1 : l.dropWhile isPySpace = l := by
    rcases l with _ | ⟨a, t⟩
    · rfl
    · rw [List.dropWhile_cons, if_neg (by simp [hh a rfl])]
  rw [h1]
  have h2 : l.reverse.dropWhile isPySpace = l.reverse := by
    rcases hr : l.reverse with _ | ⟨a, t⟩
    · rfl
    · have ha : isPySpace a = false := by
        apply hl
        rw [← List.head?_reverse, hr]
        rfl
      rw [List.dropWhile_cons, if_neg (by simp [ha])]
  rw [h2, List.reverse_reverse]

/-- The lazy path group anchored at the head of `path ++ wsB ++ fence ++
rest` yields the whole path as its first candidate: no shorter capture can
be followed by whitespace and a fence, because the path neither contains a
backtick nor ends in whitespace. -/
theorem lazyGroupCands_block (wsB rest : List Char)
    (hwsB : ∀ c ∈ wsB, isPySpace c = true) :
    ∀ s : List Char, s ≠ [] → (∀ c ∈ s, c ≠ '\x60') →
      (∀ c, s.getLast? = some c → isPySpace c = false) →
      ∃ junk, lazyGroupCands (s ++ (wsB ++ (ffence ++ rest))) = (s, rest) :: junk := by
  intro s
  induction s with
  | nil => intro hs _ _; exact absurd rfl hs
  | cons c s' ih =>
    intro _ hsb hlast
    have hc : ¬(c = '\x60') := hsb c (List.mem_cons_self c s')
    rcases s' with _ | ⟨d, t⟩
    · -- singleton path
      have htail : skipWs (wsB ++ (ffence ++ rest)) = ffence ++ rest := by
        apply dropWhile_app2 _ _ _ hwsB
        intro e he
        have : e = '\x60' := by
          have h0 : (ffence ++ rest).head? = some '\x60' := rfl
          rw [h0] at he
          injection he with hinj
          exact hinj.symm
        rw [this]; rfl
      have hlw : leadsWith ffence (ffence ++ rest) = true := leadsWith_append _ _
      have hdrop : (ffence ++ rest).drop 3 = rest := List.drop_left ffence rest
      refine ⟨(lazyGroupCands (wsB ++ (ffence ++ rest))).map
        (fun pr => (c :: pr.1, pr.2)), ?_⟩
      show lazyGroupCands (c :: (wsB ++ (ffence ++ rest))) = _
      rw [lazyGroupCands]
      simp only [hc, if_false, htail, hlw, if_true, hdrop, List.cons_append, List.nil_append]
    · -- longer path: the candidate check at this proper prefix fails
      have hlast' : ∀ e, (d :: t).getLast? = some e → isPySpace e = false := by
        intro e he
        apply hlast
        rw [List.getLast?_cons_cons]
        exact he
      obtain ⟨e0, he0⟩ := getLast?_cons_some d t
      have he0m : e0 ∈ d :: t := mem_of_getLast?_some he0
      have he0ws : isPySpace e0 = false := hlast' e0 he0
      have hdw_ne : (d :: t).dropWhile isPySpace ≠ [] := by
        intro hnil
        have := List.dropWhile_eq_nil_iff.1 hnil e0 he0m
        rw [he0ws] at this
        exact absurd this (by simp)
      obtain ⟨d0, t0, hd0⟩ : ∃ d0 t0, (d :: t).dropWhile isPySpace = d0 :: t0 := by
        rcases hq : (d :: t).dropWhile isPySpace with _ | ⟨d0, t0⟩
        · exact absurd hq hdw_ne
        · exact ⟨d0, t0, rfl⟩
      have hd0m : d0 ∈ d :: t := by
        apply (List.dropWhile_sublist isPySpace).mem
        rw [hd0]
        exact List.mem_cons_self _ _
      have hd0b : d0 ≠ '\x60' := hsb d0 (List.mem_cons_of_mem c hd0m)
      have hskip : skipWs ((d :: t) ++ (wsB ++ (ffence ++ rest)))
          = (d0 :: t0) ++ (wsB ++ (ffence ++ rest)) := by
        rw [skipWs, dropWhile_app_of_ne_nil _ _ _ hdw_ne, hd0]
      have hnolw : leadsWith ffence (skipWs ((d :: t) ++ (wsB ++ (ffence ++ rest))))
          = false := by
        rw [hskip, List.cons_append]
        have hne : '\x60' ≠ d0 := fun he => hd0b he.symm
        simp [ffence, leadsWith, hne]
      obtain ⟨junk, hj⟩ := ih (by simp)
        (fun x hx => hsb x (List.mem_cons_of_mem c hx)) hlast'
      refine ⟨junk.map (fun pr => (c :: pr.1, pr.2)), ?_⟩
      show lazyGroupCands (c :: ((d :: t) ++ (wsB ++ (ffence ++ rest)))) = _
      rw [lazyGroupCands]
      simp only [hc, hnolw, Bool.false_eq_true, if_false, List.nil_append, hj, List.map_cons]

theorem wsDescCands_head (ws S : List Char) (x : List Char × List Char)
    (junk0 : List (List Char × List Char)) (hS : lazyGroupCands S = x :: junk0) :
    ∃ junk, wsDescCands ws.length (ws ++ S) = x :: junk := by
  rcases ws with _ | ⟨w0, wrest⟩
  · exact ⟨junk0, by simpa [wsDescCands] using hS⟩
  · refine ⟨junk0 ++ wsDescCands wrest.length ((w0 :: wrest) ++ S), ?_⟩
    show wsDescCands (wrest.length + 1) ((w0 :: wrest) ++ S) = _
    rw [wsDescCands]
    have hdrop : ((w0 :: wrest) ++ S).drop (wrest.length + 1) = S := by
      have h1 : wrest.length + 1 = (w0 :: wrest).length := rfl
      rw [h1, List.drop_left]
    rw [hdrop, hS, List.cons_append]

theorem pathGroupCands_block (wsA s wsB rest : List Char)
    (hwsA : ∀ c ∈ wsA, isPySpace c = true)
    (hs : s ≠ []) (hsh : ∀ c, s.head? = some c → isPySpace c = false)
    (hsb : ∀ c ∈ s, c ≠ '\x60')
    (hlast : ∀ c, s.getLast? = some c → isPySpace c = false)
    (hwsB : ∀ c ∈ wsB, isPySpace c = true) :
    ∃ junk, pathGroupCands (wsA ++ (s ++ (wsB ++ (ffence ++ rest)))) = (s, rest) :: junk := by
  have htw : ((wsA ++ (s ++ (wsB ++ (ffence ++ rest)))).takeWhile isPySpace) = wsA := by
    apply takeWhile_app2 _ _ _ hwsA
    intro d hd
    rcases hs' : s with _ | ⟨a, t⟩
    · exact absurd hs' hs
    · rw [hs'] at hd
      have had : a = d := by
        have h0 : (((a :: t) : List Char) ++ (wsB ++ (ffence ++ rest))).head? = some a := rfl
        rw [h0] at hd
        injection hd
      rw [← had]
      exact hsh a (by rw [hs']; rfl)
  obtain ⟨junk0, hj0⟩ := lazyGroupCands_block wsB rest hwsB s hs hsb hlast
  rw [pathGroupCands, htw]
  exact wsDescCands_head wsA _ _ junk0 hj0

theorem structTail_block (wsp2 wsp3 tagL content post : List Char)
    (hw2 : ∀ c ∈ wsp2, isPySpace c = true) (hw3 : ∀ c ∈ wsp3, isPySpace c = true)
    (htag : skipLangTag (tagL ++ (content ++ (ffence ++ post)))
      = content ++ (ffence ++ post))
    (hcf : occursB ffence content = false)
    (hcl : ∀ c, content.getLast? = some c → c ≠ '\x60') :
    structTail (wsp2 ++ (fcMark ++ (wsp3 ++ (ffence ++ (tagL ++
        (content ++ (ffence ++ post)))))))
      = some (content, post) := by
  have h1 : skipWs (wsp2 ++ (fcMark ++ (wsp3 ++ (ffence ++ (tagL ++
        (content ++ (ffence ++ post)))))))
      = fcMark ++ (wsp3 ++ (ffence ++ (tagL ++ (content ++ (ffence ++ post))))) := by
    apply dropWhile_app2 _ _ _ hw2
    intro d hd
    have : d = '#' := by
      have h0 : (fcMark ++ (wsp3 ++ (ffence ++ (tagL ++
          (content ++ (ffence ++ post)))))).head? = some '#' := rfl
      rw [h0] at hd
      injection hd with hinj
      exact hinj.symm
    rw [this]; rfl
  have h2 : leadsWith fcMark
      (fcMark ++ (wsp3 ++ (ffence ++ (tagL ++ (content ++ (ffence ++ post)))))) = true :=
    leadsWith_append _ _
  have h3 : skipWs (wsp3 ++ (ffence ++ (tagL ++ (content ++ (ffence ++ post)))))
      = ffence ++ (tagL ++ (content ++ (ffence ++ post))) := by
    apply dropWhile_app2 _ _ _ hw3
    intro d hd
    have : d = '\x60' := by
      have h0 : (ffence ++ (tagL ++ (content ++ (ffence ++ post)))).head?
          = some '\x60' := rfl
      rw [h0] at hd
      injection hd with hinj
      exact hinj.symm
    rw [this]; rfl
  have h4 : leadsWith ffence (ffence ++ (tagL ++ (content ++ (ffence ++ post)))) = true :=
    leadsWith_append _ _
  have hdrop3 : (ffence ++ (tagL ++ (content ++ (ffence ++ post)))).drop 3
      = tagL ++ (content ++ (ffence ++ post)) := List.drop_left ffence _
  have h5 : splitAtFirst ffence (content ++ (ffence ++ post)) = some (content, post) := by
    have h := splitAtFirst_append_pat ffence content post
      (no_straddle_fence content post hcf hcl)
    rwa [List.append_assoc] at h
  rw [structTail]
  simp only [h1, List.drop_left, h2, h3, h4, hdrop3, htag, h5, if_true]

theorem structuredAt_block (wsp1 wsA pathL wsB wsp2 wsp3 tagL content post : List Char)
    (hw1 : ∀ c ∈ wsp1, isPySpace c = true)
    (hwA : ∀ c ∈ wsA, isPySpace c = true)
    (hwB : ∀ c ∈ wsB, isPySpace c = true)
    (hw2 : ∀ c ∈ wsp2, isPySpace c = true)
    (hw3 : ∀ c ∈ wsp3, isPySpace c = true)
    (hp0 : pathL ≠ [])
    (hpb : ∀ c ∈ pathL, c ≠ '\x60')
    (hph : ∀ c, pathL.head? = some c → isPySpace c = false)
    (hpl : ∀ c, pathL.getLast? = some c → isPySpace c = false)
    (htag : skipLangTag (tagL ++ (content ++ (ffence ++ post)))
      = content ++ (ffence ++ post))
    (hcf : occursB ffence content = false)
    (hcl : ∀ c, content.getLast? = some c → c ≠ '\x60') :
    structuredAt (fpMark ++ (wsp1 ++ (ffence ++ (wsA ++ (pathL ++ (wsB ++ (ffence ++
        (wsp2 ++ (fcMark ++ (wsp3 ++ (ffence ++ (tagL ++
          (content ++ (ffence ++ post))))))))))))))
      = some ((pyStrip (String.mk pathL), String.mk content), post) := by
  set TAIL : List Char :=
    wsp2 ++ (fcMark ++ (wsp3 ++ (ffence ++ (tagL ++ (content ++ (ffence ++ post))))))
    with hTAIL
  have h1 : leadsWith fpMark (fpMark ++ (wsp1 ++ (ffence ++ (wsA ++ (pathL ++ (wsB ++
      (ffence ++ TAIL))))))) = true := leadsWith_append _ _
  have h2 : skipWs (wsp1 ++ (ffence ++ (wsA ++ (pathL ++ (wsB ++ (ffence ++ TAIL))))))
      = ffence ++ (wsA ++ (pathL ++ (wsB ++ (ffence ++ TAIL)))) := by
    apply dropWhile_app2 _ _ _ hw1
    intro d hd
    have : d = '\x60' := by
      have h0 : (ffence ++ (wsA ++ (pathL ++ (wsB ++ (ffence ++ TAIL))))).head?
          = some '\x60' := rfl
      rw [h0] at hd
      injection hd with hinj
      exact hinj.symm
    rw [this]; rfl
  have h3 : leadsWith ffence (ffence ++ (wsA ++ (pathL ++ (wsB ++ (ffence ++ TAIL)))))
      = true := leadsWith_append _ _
  have hdrop3 : (ffence ++ (wsA ++ (pathL ++ (wsB ++ (ffence ++ TAIL))))).drop 3
      = wsA ++ (pathL ++ (wsB ++ (ffence ++ TAIL))) := List.drop_left ffence _
  obtain ⟨junk, hj⟩ := pathGroupCands_block wsA pathL wsB TAIL hwA hp0 hph hpb hpl hwB
  have htail : structTail TAIL = some (content, post) :=
    structTail_block wsp2 wsp3 tagL content post hw2 hw3 htag hcf hcl
  rw [structuredAt]
  simp only [h1, if_true, List.drop_left, h2, h3, hdrop3, hj, htail, List.findSome?_cons,
    Option.map_some']

/-- C4, counterexample: text merely CONTAINING a well-formed structured
block need not yield an entry for that block — a dangling `filePath` /
`fileContents` prefix earlier in the text swallows the block that follows
it: the lazy content capture of the dangling match stops at the opening
path fence of the later block, so the result is the single entry mapping
`pre` to `#### filePath\n` and there is no `a.py` entry at all, even
though the text contains the complete well-formed block for `a.py`
(which in isolation extracts to `X\n`, as the third conjunct shows). -/
theorem C4_counterexample :
    extract_structured_files
      ("#### filePath\n```\npre\n```\n#### fileContents\n```\n" ++
        "#### filePath\n```\na.py\n```\n#### fileContents\n```\nX\n```")
      = [("pre", "#### filePath\n")] ∧
    List.lookup "a.py"
      (extract_structured_files
        ("#### filePath\n```\npre\n```\n#### fileContents\n```\n" ++
          "#### filePath\n```\na.py\n```\n#### fileContents\n```\nX\n```")) = none ∧
    extract_structured_files
      "#### filePath\n```\na.py\n```\n#### fileContents\n```\nX\n```"
      = [("a.py", "X\n")] :=
  ⟨by decide, by decide, by decide⟩

/-- C4, amended: a structured block at the start of the text — the
`filePath` marker, a fenced region whose trimmed interior is the path, the
`fileContents` marker, and a fenced region whose interior is an optional
language-tag line followed by the content — followed by a remainder with
no further `filePath` marker, yields exactly the entry mapping the trimmed
path to the content, taken verbatim with no trimming.  Well-formedness:
the separators are whitespace, the path is nonempty, backtick-free and has
no surrounding whitespace (it is its own trim), the language-tag group
consumes exactly the tag (`skipLangTag` fixes the content), and the
content neither contains a closing fence nor ends in a backtick. -/
theorem C4_structured_block_extracts
    (wsp1 wsA path wsB wsp2 wsp3 tag content post : String)
    (hw1 : ∀ c ∈ wsp1.data, isPySpace c = true)
    (hwA : ∀ c ∈ wsA.data, isPySpace c = true)
    (hwB : ∀ c ∈ wsB.data, isPySpace c = true)
    (hw2 : ∀ c ∈ wsp2.data, isPySpace c = true)
    (hw3 : ∀ c ∈ wsp3.data, isPySpace c = true)
    (hp0 : path.data ≠ [])
    (hpb : ∀ c ∈ path.data, c ≠ '\x60')
    (hph : ∀ c, path.data.head? = some c → isPySpace c = false)
    (hpl : ∀ c, path.data.getLast? = some c → isPySpace c = false)
    (htag : skipLangTag (tag.data ++ (content.data ++ (ffence ++ post.data)))
      = content.data ++ (ffence ++ post.data))
    (hcf : occursB ffence content.data = false)
    (hcl : ∀ c, content.data.getLast? = some c → c ≠ '\x60')
    (hpost : occursB fpMark post.data = false) :
    extract_structured_files
      ("#### filePath" ++ wsp1 ++ "```" ++ wsA ++ path ++ wsB ++ "```" ++ wsp2 ++
        "#### fileContents" ++ wsp3 ++ "```" ++ tag ++ content ++ "```" ++ post)
      = [(path, content)] := by
  have hdata : ("#### filePath" ++ wsp1 ++ "```" ++ wsA ++ path ++ wsB ++ "```" ++ wsp2 ++
        "#### fileContents" ++ wsp3 ++ "```" ++ tag ++ content ++ "```" ++ post).data
      = fpMark ++ (wsp1.data ++ (ffence ++ (wsA.data ++ (path.data ++ (wsB.data ++
          (ffence ++ (wsp2.data ++ (fcMark ++ (wsp3.data ++ (ffence ++ (tag.data ++
            (content.data ++ (ffence ++ post.data))))))))))))) := by
    simp only [String.data_append, List.append_assoc]
    rfl
  have hne : fpMark ++ (wsp1.data ++ (ffence ++ (wsA.data ++ (path.data ++ (wsB.data ++
      (ffence ++ (wsp2.data ++ (fcMark ++ (wsp3.data ++ (ffence ++ (tag.data ++
        (content.data ++ (ffence ++ post.data))))))))))))) ≠ [] := by
    intro h
    have := congrArg List.length h
    simp [fpMark] at this
  have hblock := structuredAt_block wsp1.data wsA.data path.data wsB.data wsp2.data
    wsp3.data tag.data content.data post.data hw1 hwA hwB hw2 hw3 hp0 hpb hph hpl
    htag hcf hcl
  rw [extract_structured_files, hdata, scanStructF_cons_some hne hblock,
    scanStructF_no_occ _ post.data hpost]
  have hstrip : pyStrip (String.mk path.data) = path := by
    rw [pyStrip]
    exact String.ext (stripL_of_trimmed path.data hph hpl)
  rw [hstrip]
  rfl

/-- C4, witness: a concrete structured block with a `py` language tag,
followed by trailing text with no further marker. -/
theorem C4_witness :
    extract_structured_files
      ("#### filePath" ++ "\n\n" ++ "```" ++ "\n" ++ "src/app.py" ++ "\n" ++ "```" ++
        "\n\n" ++ "#### fileContents" ++ "\n\n" ++ "```" ++ "py\n" ++ "X = 1\n" ++ "```" ++
        "\ndone")
      = [("src/app.py", "X = 1\n")] :=
  C4_structured_block_extracts "\n\n" "\n" "src/app.py" "\n" "\n\n" "\n\n" "py\n" "X = 1\n"
    "\ndone"
    (by decide) (by decide) (by decide) (by decide) (by decide) (by decide) (by decide)
    (by decide) (by decide) (by decide) (by decide) (by decide) (by decide)

end ESF

